import Mathlib

/-!
Verification development for the AI-web-builder frontend core:
the response-to-file-tree parser (`steps.ts`, two variants), the
step/file assembler (`Builder.tsx`, `App.tsx`), the project repair
engine (`PreviewFrame.tsx`) and the bundle synthesizer
(`PreviewFrame.tsx` variant with `buildPreview`).

All JavaScript string/regex operations are shallowly embedded as
executable scanners over `List Char`.  Every definition mirrors one
place in the source; the source file and function are named in each
doc comment.  String literals in this file write a single quote as
\x27, a left brace as \x7b and a right brace as \x7d.
-/

/-- Characters of a string; all scanners work on `List Char`. -/
abbrev Chars := List Char

/-- ASCII lower-casing of one character (JS `toLowerCase` restricted to
ASCII, which covers every string this development evaluates). -/
def lowerChar (c : Char) : Char :=
  if 'A' ≤ c ∧ c ≤ 'Z' then Char.ofNat (c.toNat + 32) else c

/-- JS whitespace class `\s` (ASCII part: space, tab, LF, CR, VT, FF). -/
def isJsWs (c : Char) : Bool :=
  c = ' ' ∨ c = '\t' ∨ c = '\n' ∨ c = '\r' ∨ c = '\x0b' ∨ c = '\x0c'

/-- JS word-character class `\w` (ASCII letters, digits, underscore). -/
def isWordChar (c : Char) : Bool :=
  ('a' ≤ c ∧ c ≤ 'z') ∨ ('A' ≤ c ∧ c ≤ 'Z') ∨ ('0' ≤ c ∧ c ≤ '9') ∨ c = '_'

/-- ASCII uppercase letter (regex class `[A-Z]`). -/
def isUpperAZ (c : Char) : Bool := 'A' ≤ c ∧ c ≤ 'Z'

/-- ASCII alphanumeric (regex class `[A-Za-z0-9]`). -/
def isAlnum (c : Char) : Bool :=
  ('a' ≤ c ∧ c ≤ 'z') ∨ ('A' ≤ c ∧ c ≤ 'Z') ∨ ('0' ≤ c ∧ c ≤ '9')

/-- JS `String.prototype.trim` (ASCII whitespace model). -/
def trimChars (l : Chars) : Chars :=
  ((l.dropWhile isJsWs).reverse.dropWhile isJsWs).reverse

/-- `trim` on strings. -/
def jsTrim (s : String) : String := ⟨trimChars s.data⟩

/-- Case-sensitive literal prefix test. -/
def litStarts : Chars → Chars → Bool
  | [], _ => true
  | _ :: _, [] => false
  | p :: ps, c :: cs => p = c ∧ litStarts ps cs

/-- Case-insensitive literal prefix test (for `/i` regexes). -/
def ciStarts : Chars → Chars → Bool
  | [], _ => true
  | _ :: _, [] => false
  | p :: ps, c :: cs => lowerChar p = lowerChar c ∧ ciStarts ps cs

/-- Does `pat` occur (case-sensitively) anywhere in `l`? -/
def occursIn (pat : Chars) : Chars → Bool
  | [] => litStarts pat []
  | c :: cs => litStarts pat (c :: cs) ∨ occursIn pat cs

/-- Does `pat` occur case-insensitively anywhere in `l`? -/
def ciOccursIn (pat : Chars) : Chars → Bool
  | [] => ciStarts pat []
  | c :: cs => ciStarts pat (c :: cs) ∨ ciOccursIn pat cs

/-- Split `l` at the first case-insensitive occurrence of `pat`:
returns `(before, after-the-pattern)`.  This is the semantics of a lazy
regex body `[\s\S]*?` followed by a literal. -/
def ciSplitFirst (pat : Chars) : Chars → Option (Chars × Chars)
  | [] => if ciStarts pat [] then some ([], []) else none
  | c :: cs =>
    if ciStarts pat (c :: cs) then some ([], (c :: cs).drop pat.length)
    else match ciSplitFirst pat cs with
      | some (a, b) => some (c :: a, b)
      | none => none

/-- Split `l` at the first case-sensitive occurrence of `pat`. -/
def splitFirst (pat : Chars) : Chars → Option (Chars × Chars)
  | [] => if litStarts pat [] then some ([], []) else none
  | c :: cs =>
    if litStarts pat (c :: cs) then some ([], (c :: cs).drop pat.length)
    else match splitFirst pat cs with
      | some (a, b) => some (c :: a, b)
      | none => none

/-- Fuel-driven core of the JS `regex.exec` loop with the `g` flag: try
the matcher at every position, collect results, resume after the end of
each match (JS advances `lastIndex` to the match end; on failure the
scan slides one character).  The matcher returns its result and the
number of characters consumed by the whole match; every step consumes
at least one character, so fuel equal to the input length suffices.
Structural recursion on the fuel keeps the definition reducible by the
kernel. -/
def scanAllF (step : Chars → Option (α × Nat)) : Nat → Chars → List α
  | 0, _ => []
  | _, [] => []
  | Nat.succ n, c :: cs =>
    match step (c :: cs) with
    | some (a, k) => a :: scanAllF step n (List.drop (max k 1) (c :: cs))
    | none => scanAllF step n cs

/-- JS `regex.exec` loop with the `g` flag. -/
def scanAll (step : Chars → Option (α × Nat)) (l : Chars) : List α :=
  scanAllF step l.length l

/-- Fuel-driven core of `scanAllIdx`. -/
def scanAllIdxF (step : Chars → Option (α × Nat)) : Nat → Chars → Nat → List (Nat × α × Nat)
  | 0, _, _ => []
  | _, [], _ => []
  | Nat.succ n, c :: cs, i =>
    match step (c :: cs) with
    | some (a, k) =>
        (i, a, max k 1) :: scanAllIdxF step n (List.drop (max k 1) (c :: cs)) (i + max k 1)
    | none => scanAllIdxF step n cs (i + 1)

/-- `scanAll` variant recording the start index and match length of
every match (JS `matchAll`, which exposes `match.index` and
`match[0].length`). -/
def scanAllIdx (step : Chars → Option (α × Nat)) (l : Chars) (i : Nat) :
    List (Nat × α × Nat) :=
  scanAllIdxF step l.length l i

/-- Fuel-driven core of `replaceScan`. -/
def replaceScanF (step : Chars → Option (Chars × Nat)) : Nat → Chars → Chars
  | 0, l => l
  | _, [] => []
  | Nat.succ n, c :: cs =>
    match step (c :: cs) with
    | some (r, k) => r ++ replaceScanF step n (List.drop (max k 1) (c :: cs))
    | none => c :: replaceScanF step n cs

/-- Generic JS `String.replace` with a `g` regex: every match is
replaced by the matcher-returned replacement, unmatched characters are
copied. -/
def replaceScan (step : Chars → Option (Chars × Nat)) (l : Chars) : Chars :=
  replaceScanF step l.length l

/-- Fuel-driven core of `replaceScanLS`. -/
def replaceScanLSF (step : Bool → Chars → Option (Chars × Nat)) : Nat → Bool → Chars → Chars
  | 0, _, l => l
  | _, _, [] => []
  | Nat.succ n, ls, c :: cs =>
    match step ls (c :: cs) with
    | some (r, k) =>
        let k2 := max k 1
        r ++ replaceScanLSF step n (((c :: cs).take k2).getLast? = some '\n')
              (List.drop k2 (c :: cs))
    | none => c :: replaceScanLSF step n (c = '\n') cs

/-- Generic JS `String.replace` with a `gm` regex whose matches are
anchored at line starts: the matcher additionally receives whether the
current position is a line start, and the flag is recomputed from the
last consumed character. -/
def replaceScanLS (step : Bool → Chars → Option (Chars × Nat)) (ls : Bool) (l : Chars) : Chars :=
  replaceScanLSF step l.length ls l

/-- First match of an un-anchored regex (JS `String.match` without `g`):
returns the result of the matcher at the first position where it
succeeds. -/
def findFirst (step : Chars → Option α) : Chars → Option α
  | [] => step []
  | c :: cs =>
    match step (c :: cs) with
    | some a => some a
    | none => findFirst step cs

/-- Maximal run of characters satisfying `p` together with the rest
(greedy character class). -/
def takeRun (p : Char → Bool) (l : Chars) : Chars × Chars :=
  (l.takeWhile p, l.dropWhile p)

/-- Require at least one character of the run (regex `+`). -/
def takeRun1 (p : Char → Bool) (l : Chars) : Option (Chars × Chars) :=
  match l.takeWhile p with
  | [] => none
  | r => some (r, l.dropWhile p)

/-- Single-quote character, written by code point to keep string
literals free of quote characters. -/
def sqC : Char := Char.ofNat 39

/-- Double-quote character. -/
def dq : Char := Char.ofNat 34

/-- Backtick character. -/
def bt : Char := Char.ofNat 96

/-- String of one single quote. -/
def sqS : String := String.mk [sqC]

namespace Types

/-- `Step` record produced by the parser (src/unnamed/part_001,
`Step` consumers); `status` is always the literal string used by the
source (`completed` in the parser, `pending` in Builder). -/
structure Step where
  id : String
  title : String
  status : String
  path : String
  code : String
deriving DecidableEq, Repr

end Types

namespace Steps

/-!
Embedding of the current `parseXml` (src/unnamed/part_001, lines
182-338): tagged-block strategy, markdown-header strategies, fenced
code-block strategy, and helpers.
-/

/-- Matcher for one tagged file block, the regex
`<boltAction\s+type="file"\s+filePath="([^"]+)"[^>]*>([\s\S]*?)<\/boltAction>`
with flags `gi` (src/unnamed/part_001, line 188).  Returns
`((filePath, body), matchLength)`. -/
def boltMatch (l : Chars) : Option ((Chars × Chars) × Nat) :=
  if ciStarts "<boltAction".data l then
    let l1 := l.drop 11
    match takeRun1 isJsWs l1 with
    | none => none
    | some (ws1, l2) =>
      if ciStarts ("type=".data ++ [dq] ++ "file".data ++ [dq]) l2 then
        let l3 := l2.drop 11
        match takeRun1 isJsWs l3 with
        | none => none
        | some (ws2, l4) =>
          if ciStarts ("filePath=".data ++ [dq]) l4 then
            let l5 := l4.drop 10
            match takeRun1 (fun c => ¬ c = dq) l5 with
            | none => none
            | some (path, l6) =>
              match l6 with
              | [] => none
              | _ :: l7 =>
                let (attrs, l8) := takeRun (fun c => ¬ c = '>') l7
                match l8 with
                | [] => none
                | _ :: l9 =>
                  match ciSplitFirst "</boltAction>".data l9 with
                  | none => none
                  | some (body, _) =>
                    some ((path, body),
                      11 + ws1.length + 11 + ws2.length + 10 + path.length + 1 +
                        attrs.length + 1 + body.length + 13)
          else none
      else none
  else none

/-- All tagged-block matches of a response, in document order
(`[...response.matchAll(xmlPattern)]`, src/unnamed/part_001 line 189). -/
def xmlMatches (s : String) : List (Chars × Chars) :=
  scanAll boltMatch s.data

/-- The steps built from the tagged-block matches
(src/unnamed/part_001, lines 193-204): path is the captured attribute,
code is the trimmed body. -/
def stepOfXmlMatch (i : Nat) (m : Chars × Chars) : Types.Step :=
  { id := "step-" ++ toString i
    title := "Create " ++ String.mk m.1
    status := "completed"
    path := String.mk m.1
    code := String.mk (trimChars m.2) }

end Steps

namespace Steps.V2

/-- File-name character class `[A-Za-z0-9_\-\.]` of the markdown header
patterns (src/unnamed/part_001, lines 213-215). -/
def fileClassChar (c : Char) : Bool := isAlnum c || c = '_' || c = '-' || c = '.'

/-- The extension alternation `(html?|css|jsx?|tsx?|json)` with flag `i`:
alternatives are tried in source order, a greedy `?` tries the longer
form first; returns the number of characters the first succeeding
alternative consumes.  Because nothing in the alternation constrains
what follows, a later alternative is reached only when the earlier ones
fail to start (JS backtracking). -/
def extAlt (l : Chars) : Option Nat :=
  if ciStarts "html".data l then some 4
  else if ciStarts "htm".data l then some 3
  else if ciStarts "css".data l then some 3
  else if ciStarts "jsx".data l then some 3
  else if ciStarts "js".data l then some 2
  else if ciStarts "tsx".data l then some 3
  else if ciStarts "ts".data l then some 2
  else if ciStarts "json".data l then some 4
  else none

/-- Split a character-class run at its last dot: `some (stem, ext)` with
nonempty stem.  Used where a trailing literal forces the extension to
end exactly at the end of the class run. -/
def lastDotSplit (r : Chars) : Option (Chars × Chars) :=
  match r.reverse.takeWhile (fun c => ¬ c = '.') , r.reverse.dropWhile (fun c => ¬ c = '.') with
  | ext, '.' :: stem => if stem.isEmpty then none else some (stem.reverse, ext.reverse)
  | _, _ => none

/-- Lower-cased copy of a character list. -/
def lowerAll (l : Chars) : Chars := l.map lowerChar

/-- Header pattern 1, `\*\*([A-Za-z0-9_\-\.]+\.(html?|css|jsx?|tsx?|json))\*\*`
with flags `gi` (src/unnamed/part_001, line 213).  Because `*` is not in
the class, the greedy class run must end with `.ext` and be followed
immediately by the closing `**`. -/
def hdr1Match (l : Chars) : Option (Chars × Nat) :=
  if litStarts "**".data l then
    let l1 := l.drop 2
    let (run, rest) := takeRun fileClassChar l1
    match lastDotSplit run with
    | some (_, ext) =>
      if (lowerAll ext = "html".data ∨ lowerAll ext = "htm".data ∨
          lowerAll ext = "css".data ∨ lowerAll ext = "js".data ∨
          lowerAll ext = "jsx".data ∨ lowerAll ext = "ts".data ∨
          lowerAll ext = "tsx".data ∨ lowerAll ext = "json".data) ∧
          litStarts "**".data rest then
        some (run, 2 + run.length + 2)
      else none
    | none => none
  else none

/-- Greedy search for the `[class]+\.(ext…)` split: the class run is
consumed greedily, so the `\.` matches at the largest index `k ≥ 1`
(counted from the start of `l2`) holding a dot such that an extension
alternative matches after it.  Returns `(k, extension length)`. -/
def dotSearch (l2 : Chars) (extF : Chars → Option Nat) : Nat → Option (Nat × Nat)
  | 0 => none
  | Nat.succ k =>
    match (if l2.get? (k + 1) = some '.' then extF (l2.drop (k + 2)) else none) with
    | some e => some (k + 1, e)
    | none => dotSearch l2 extF k

/-- Header pattern 2, `###\s*([A-Za-z0-9_\-\.]+\.(html?|css|jsx?|tsx?|json))`
with flags `gi` (src/unnamed/part_001, line 214).  Nothing follows the
group, so the extension may well stop inside the written extension
(e.g. `file.json` is captured as `file.js` because `jsx?` is tried
before `json`). -/
def hdr2Match (l : Chars) : Option (Chars × Nat) :=
  if litStarts "###".data l then
    let l1 := l.drop 3
    let (ws, l2) := takeRun isJsWs l1
    let run := l2.takeWhile fileClassChar
    match dotSearch l2 extAlt (run.length - 1) with
    | some (k, e) => some (l2.take (k + 1 + e), 3 + ws.length + k + 1 + e)
    | none => none
  else none

/-- Index of the last newline inside a whitespace run, if any. -/
def lastNlIdx (run : Chars) : Option Nat :=
  match run.reverse.takeWhile (fun c => ¬ c = '\n') with
  | t => if t.length = run.length then none else some (run.length - t.length - 1)

/-- Trailing `\s*$` with the `m` flag: greedily consume whitespace, then
`$` must sit at the end of input or just before a newline; on failure
the whitespace run backtracks to the last newline inside it.  Returns
the number of consumed characters. -/
def wsDollar (l : Chars) : Option Nat :=
  let run := l.takeWhile isJsWs
  if (l.dropWhile isJsWs).isEmpty then some run.length
  else match lastNlIdx run with
    | some j => some j
    | none => none

/-- Trailing `:?\s*$` of header pattern 3. -/
def colonWsDollar (l : Chars) : Option Nat :=
  match l with
  | ':' :: t =>
    (match wsDollar t with
     | some n => some (n + 1)
     | none => none)
  | _ => wsDollar l

/-- Extension alternation of pattern 3, where the trailing `:?\s*$` can
reject an alternative and backtrack to the next one.  Returns
`(extension length, trailing length)`. -/
def extAltTrail (l : Chars) : Option (Nat × Nat) :=
  (if ciStarts "html".data l then (colonWsDollar (l.drop 4)).map (fun t => (4, t)) else none).orElse fun _ =>
  (if ciStarts "htm".data l then (colonWsDollar (l.drop 3)).map (fun t => (3, t)) else none).orElse fun _ =>
  (if ciStarts "css".data l then (colonWsDollar (l.drop 3)).map (fun t => (3, t)) else none).orElse fun _ =>
  (if ciStarts "jsx".data l then (colonWsDollar (l.drop 3)).map (fun t => (3, t)) else none).orElse fun _ =>
  (if ciStarts "js".data l then (colonWsDollar (l.drop 2)).map (fun t => (2, t)) else none).orElse fun _ =>
  (if ciStarts "tsx".data l then (colonWsDollar (l.drop 3)).map (fun t => (3, t)) else none).orElse fun _ =>
  (if ciStarts "ts".data l then (colonWsDollar (l.drop 2)).map (fun t => (2, t)) else none).orElse fun _ =>
  (if ciStarts "json".data l then (colonWsDollar (l.drop 4)).map (fun t => (4, t)) else none).orElse fun _ =>
  none

/-- Greedy dot search for pattern 3 (same as `dotSearch` but an
alternative must also satisfy the trailing `:?\s*$`). -/
def dotSearchTrail (l2 : Chars) : Nat → Option (Nat × Nat × Nat)
  | 0 => none
  | Nat.succ k =>
    match (if l2.get? (k + 1) = some '.' then extAltTrail (l2.drop (k + 2)) else none) with
    | some (e, t) => some (k + 1, e, t)
    | none => dotSearchTrail l2 k

/-- Header pattern 3,
`^([A-Za-z0-9_\-\.]+\.(html?|css|jsx?|tsx?|json)):?\s*$` with flags
`gmi` (src/unnamed/part_001, line 215): a bare filename on its own
line.  The matcher is only tried at line starts. -/
def hdr3Match (ls : Bool) (l : Chars) : Option (Chars × Nat) :=
  if ls then
    let run := l.takeWhile fileClassChar
    match dotSearchTrail l (run.length - 1) with
    | some (k, e, t) => some (l.take (k + 1 + e), k + 1 + e + t)
    | none => none
  else none

/-- Fuel-driven core of `scanAllIdxLS`. -/
def scanAllIdxLSF (step : Bool → Chars → Option (α × Nat)) :
    Nat → Bool → Chars → Nat → List (Nat × α × Nat)
  | 0, _, _, _ => []
  | _, _, [], _ => []
  | Nat.succ n, ls, c :: cs, i =>
    match step ls (c :: cs) with
    | some (a, k) =>
        (i, a, max k 1) ::
          scanAllIdxLSF step n (((c :: cs).take (max k 1)).getLast? = some '\n')
            (List.drop (max k 1) (c :: cs)) (i + max k 1)
    | none => scanAllIdxLSF step n (c = '\n') cs (i + 1)

/-- `matchAll` for a line-anchored (`m`) pattern: like `scanAllIdx` but
tracking whether the scan position is a line start. -/
def scanAllIdxLS (step : Bool → Chars → Option (α × Nat)) (ls : Bool) (l : Chars) (i : Nat) :
    List (Nat × α × Nat) :=
  scanAllIdxLSF step l.length ls l i

/-- Markdown junk class `[\*#\`\-\s]` of the section cleanup
(src/unnamed/part_001, line 308). -/
def isJunk (c : Char) : Bool := c = '*' ∨ c = '#' ∨ c = bt ∨ c = '-' ∨ isJsWs c

/-- First replace of the cleanup, `/^\s*[\*#\`\-\s]+/gm` → the empty
string: at each line start, the maximal run of junk characters (which
may cross newlines, since `\s` matches a newline) is deleted. -/
def stripJunkStep (ls : Bool) (l : Chars) : Option (Chars × Nat) :=
  if ls then
    match l.takeWhile isJunk with
    | [] => none
    | r => some ([], r.length)
  else none

/-- Second replace of the cleanup, `/^[\s]*$/gm` → the empty string:
at a line start, a whitespace run satisfying a following `$`
(end-of-input or just before a newline) is deleted; a zero-length
match is a no-op. -/
def stripWsLineStep (ls : Bool) (l : Chars) : Option (Chars × Nat) :=
  if ls then
    match wsDollar l with
    | some (Nat.succ n) => some ([], n + 1)
    | _ => none
  else none

/-- Fenced-code-block search inside one header section, the regex
`/```(?:\w+)?\n([\s\S]*?)```/` (src/unnamed/part_001, line 301):
opening fence, optional language word, a newline, lazy body, closing
fence. -/
def sectionFenceMatch (l : Chars) : Option Chars :=
  if litStarts [bt, bt, bt] l then
    let l1 := l.drop 3
    let l2 := l1.dropWhile isWordChar
    match l2 with
    | '\n' :: l3 =>
      match splitFirst [bt, bt, bt] l3 with
      | some (body, _) => some body
      | none => none
    | _ => none
  else none

/-- `extractCodeFromSection` (src/unnamed/part_001, lines 299-311):
prefer the body of an embedded fenced block; otherwise delete markdown
junk at line starts, blank out whitespace-only lines and trim. -/
def extractCodeFromSection (content : Chars) : Chars :=
  match findFirst sectionFenceMatch content with
  | some body => trimChars body
  | none =>
      trimChars (replaceScanLS stripWsLineStep true
        (replaceScanLS stripJunkStep true content))

/-- `extractFileName` (src/unnamed/part_001, lines 313-321): the first
`(?:function|const|class)\s+([A-Z][A-Za-z0-9]*)` match names the file
`Name.jsx`. -/
def extractFileName (code : Chars) : Option Chars :=
  findFirst
    (fun l =>
      let kw : Option Nat :=
        if litStarts "function".data l then some 8
        else if litStarts "const".data l then some 5
        else if litStarts "class".data l then some 5
        else none
      match kw with
      | none => none
      | some k =>
        match takeRun1 isJsWs (l.drop k) with
        | none => none
        | some (_, l2) =>
          match l2 with
          | c :: cs => if isUpperAZ c then some (c :: cs.takeWhile isAlnum) else none
          | [] => none)
    code

/-- `getFileExtension` (src/unnamed/part_001, lines 323-336). -/
def getFileExtension (language : String) : String :=
  let l := String.mk (lowerAll language.data)
  if l = "javascript" then "js"
  else if l = "jsx" then "jsx"
  else if l = "js" then "js"
  else if l = "typescript" then "ts"
  else if l = "tsx" then "tsx"
  else if l = "css" then "css"
  else if l = "html" then "html"
  else if l = "json" then "json"
  else "jsx"

/-- Whole-response fenced-block matcher, the regex
`/```(\w+)?\n([\s\S]*?)```/g` (src/unnamed/part_001, line 244).
Returns `(language group (empty when absent), body)`. -/
def codeBlockMatch (l : Chars) : Option ((Chars × Chars) × Nat) :=
  if litStarts [bt, bt, bt] l then
    let l1 := l.drop 3
    let (lang, l2) := takeRun isWordChar l1
    match l2 with
    | '\n' :: l3 =>
      match splitFirst [bt, bt, bt] l3 with
      | some (body, _) => some ((lang, body), 3 + lang.length + 1 + body.length + 3)
      | none => none
    | _ => none
  else none

/-- All fenced-block matches of a response, in order. -/
def codeBlockMatches (s : String) : List (Chars × Chars) :=
  scanAll codeBlockMatch s.data

end Steps.V2

namespace Steps

/-- A candidate section `{name, content}` (src/unnamed/part_001,
line 218). -/
structure Section2 where
  name : String
  content : String
deriving DecidableEq, Repr

namespace V2

/-- Slice the response between consecutive header matches
(src/unnamed/part_001, lines 226-237): for match `i`, the content is
the raw text from the end of match `i` to the start of match `i+1` (or
end of input), passed through `extractCodeFromSection`; the name is the
trimmed capture group. -/
def sectionsOfHeaderMatches (resp : Chars) : List (Nat × Chars × Nat) → List Section2
  | [] => []
  | (idx, name, len) :: rest =>
    let startPos := idx + len
    let endPos := match rest with
      | (idx2, _, _) :: _ => idx2
      | [] => resp.length
    { name := String.mk (trimChars name)
      content := String.mk (extractCodeFromSection ((resp.drop startPos).take (endPos - startPos))) }
      :: sectionsOfHeaderMatches resp rest

/-- The three header pattern match lists, in the order the source tries
them (src/unnamed/part_001, lines 212-216). -/
def headerMatchLists (s : String) : List (List (Nat × Chars × Nat)) :=
  [scanAllIdx hdr1Match s.data 0,
   scanAllIdx hdr2Match s.data 0,
   scanAllIdxLS hdr3Match true s.data 0]

/-- The header strategy (src/unnamed/part_001, lines 221-240): the
first pattern with more than one match wins and the loop breaks. -/
def headerSections (s : String) : List Section2 :=
  match (headerMatchLists s).find? (fun ms => ms.length > 1) with
  | some ms => sectionsOfHeaderMatches s.data ms
  | none => []

/-- The fenced-block strategy (src/unnamed/part_001, lines 243-259):
blocks whose trimmed body has more than 20 characters become sections;
the name comes from `extractFileName` or a `ComponentN.ext` placeholder
numbered by accepted blocks. -/
def sectionsOfCodeBlocks (blockIndex : Nat) : List (Chars × Chars) → List Section2
  | [] => []
  | (lang, code) :: rest =>
    if (trimChars code).length > 20 then
      let fileName :=
        match extractFileName code with
        | some nm => String.mk nm ++ ".jsx"
        | none =>
            "Component" ++ toString (blockIndex + 1) ++ "." ++
              getFileExtension (if lang.isEmpty then "jsx" else String.mk lang)
      { name := fileName, content := String.mk (trimChars code) } ::
        sectionsOfCodeBlocks (blockIndex + 1) rest
    else sectionsOfCodeBlocks blockIndex rest

/-- All sections recovered by the non-tagged strategies
(src/unnamed/part_001, lines 218-259). -/
def sections (s : String) : List Section2 :=
  match headerSections s with
  | [] => sectionsOfCodeBlocks 0 (codeBlockMatches s)
  | ss => ss

end V2

end Steps

/-- JS `String.prototype.endsWith`. -/
def endsWithS (s suf : String) : Bool := litStarts suf.data.reverse s.data.reverse

namespace Steps.V2

/-- Path resolution for a section name (src/unnamed/part_001, lines
263-279): `index.html` and `projects.json` stay at the root, `.css`
and `.js` files stay at the root, `.tsx`/`.jsx`/`.ts` files go under
`src/`, everything else also defaults to `src/`. -/
def resolveSectionPath (fileName : String) : String :=
  if fileName = "index.html" ∨ fileName = "projects.json" then fileName
  else if endsWithS fileName ".css" ∨ endsWithS fileName ".js" then fileName
  else if endsWithS fileName ".tsx" ∨ endsWithS fileName ".jsx" ∨ endsWithS fileName ".ts" then
    "src/" ++ fileName
  else "src/" ++ fileName

/-- Step built from section `i` (src/unnamed/part_001, lines 281-287). -/
def stepOfSection (i : Nat) (sec : Section2) : Types.Step :=
  { id := "step-" ++ toString i
    title := "Create " ++ sec.name
    status := "completed"
    path := resolveSectionPath sec.name
    code := sec.content }

/-- Enumerate a list with indices from `i` (JS `forEach` index). -/
def enumMap (f : Nat → α → β) : Nat → List α → List β
  | _, [] => []
  | i, a :: rest => f i a :: enumMap f (i + 1) rest

end Steps.V2

namespace Steps

/-- The current `parseXml` (src/unnamed/part_001, lines 182-297).  If
any tagged block matches, those matches alone become the steps and the
function returns early; otherwise the header and fenced-block
strategies build sections, which are turned into steps; if no sections
were found the function only logs a warning and returns the empty
list. -/
def parseXml (s : String) : List Types.Step :=
  match xmlMatches s with
  | [] => V2.enumMap V2.stepOfSection 0 (V2.sections s)
  | ms => V2.enumMap (fun i m => stepOfXmlMatch i m) 0 ms

end Steps


namespace StepsLegacy

/-!
Embedding of the earlier `parseXml` (src/unnamed/part_001, lines
1-179): no tagged-block strategy; three markdown header patterns; a
code-block regex written as six literal backticks (which has no capture
groups, so its `code` variable is always undefined and the strategy
never yields a section); and a fallback step holding a default todo
application.
-/

/-- Extension alternation `(jsx?|tsx?|css|html|json)` of the legacy
patterns, flags `gi`, alternatives in source order. -/
def extAltV1 (l : Chars) : Option Nat :=
  if ciStarts "jsx".data l then some 3
  else if ciStarts "js".data l then some 2
  else if ciStarts "tsx".data l then some 3
  else if ciStarts "ts".data l then some 2
  else if ciStarts "css".data l then some 3
  else if ciStarts "html".data l then some 4
  else if ciStarts "json".data l then some 4
  else none

/-- Class `[^`\n]` of legacy pattern 1. -/
def classA (c : Char) : Bool := ¬ c = bt ∧ ¬ c = '\n'

/-- Class `[^*\n]` of legacy pattern 2. -/
def classB (c : Char) : Bool := ¬ c = '*' ∧ ¬ c = '\n'

/-- Legacy pattern 1, `###\s*([^`\n]+\.(jsx?|tsx?|css|html|json))` with
flags `gi` (src/unnamed/part_001, line 11). -/
def hdr1V1Match (l : Chars) : Option (Chars × Nat) :=
  if litStarts "###".data l then
    let l1 := l.drop 3
    let (ws, l2) := takeRun isJsWs l1
    let run := l2.takeWhile classA
    match Steps.V2.dotSearch l2 extAltV1 (run.length - 1) with
    | some (k, e) => some (l2.take (k + 1 + e), 3 + ws.length + k + 1 + e)
    | none => none
  else none

/-- Legacy pattern 2, `\*\*([^*\n]+\.(jsx?|tsx?|css|html|json))\*\*`
with flags `gi` (src/unnamed/part_001, line 12): the closing `**`
forces the extension to end exactly at the end of the class run. -/
def hdr2V1Match (l : Chars) : Option (Chars × Nat) :=
  if litStarts "**".data l then
    let l1 := l.drop 2
    let (run, rest) := takeRun classB l1
    match Steps.V2.lastDotSplit run with
    | some (_, ext) =>
      if (Steps.V2.lowerAll ext = "js".data ∨ Steps.V2.lowerAll ext = "jsx".data ∨
          Steps.V2.lowerAll ext = "ts".data ∨ Steps.V2.lowerAll ext = "tsx".data ∨
          Steps.V2.lowerAll ext = "css".data ∨ Steps.V2.lowerAll ext = "html".data ∨
          Steps.V2.lowerAll ext = "json".data) ∧
          litStarts "**".data rest then
        some (run, 2 + run.length + 2)
      else none
    | none => none
  else none

/-- Name part of legacy pattern 3,
`[A-Za-z][A-Za-z0-9]*\.(jsx?|tsx?|css|html|json)`: the alnum run holds
no dot, so the dot must directly follow the maximal run. -/
def hdr3V1Name (l : Chars) : Option (Chars × Nat) :=
  match l with
  | c :: cs =>
    if isUpperAZ c ∨ ('a' ≤ c ∧ c ≤ 'z') then
      let run := cs.takeWhile isAlnum
      match cs.drop run.length with
      | '.' :: l2 =>
        match extAltV1 l2 with
        | some e => some (l.take (1 + run.length + 1 + e), 1 + run.length + 1 + e)
        | none => none
      | _ => none
    else none
  | [] => none

/-- The `\n`-consuming branch of `(?:^|\n)` in legacy pattern 3
(src/unnamed/part_001, line 13); the consumed newline is part of the
whole match. -/
def hdr3V1NlMatch (l : Chars) : Option (Chars × Nat) :=
  match l with
  | '\n' :: t =>
    (match hdr3V1Name t with
     | some (nm, k) => some (nm, k + 1)
     | none => none)
  | _ => none

/-- `matchAll` of legacy pattern 3: the `^` branch only applies at
position 0 (no `m` flag); every other match starts with a newline. -/
def hdr3V1Matches (s : Chars) : List (Nat × Chars × Nat) :=
  match hdr3V1Name s with
  | some (nm, k) => (0, nm, max k 1) :: scanAllIdx hdr3V1NlMatch (s.drop (max k 1)) (max k 1)
  | none => scanAllIdx hdr3V1NlMatch s 0

/-- The three legacy header pattern match lists, in source order
(src/unnamed/part_001, lines 10-14). -/
def headerMatchListsV1 (s : String) : List (List (Nat × Chars × Nat)) :=
  [scanAllIdx hdr1V1Match s.data 0,
   scanAllIdx hdr2V1Match s.data 0,
   hdr3V1Matches s.data]

/-- `extractCodeFromSection` of the legacy parser (src/unnamed/part_001,
lines 84-96).  Its embedded code-block regex is six literal backticks
with no capture group; when it matches, the source reads
`codeBlockMatch[1].trim()` on an undefined group and throws a
TypeError, modelled as `none`. -/
def extractCodeFromSectionV1 (content : Chars) : Option Chars :=
  if occursIn [bt, bt, bt, bt, bt, bt] content then none
  else
    some (trimChars (replaceScanLS Steps.V2.stripWsLineStep true
      (replaceScanLS Steps.V2.stripJunkStep true content)))

/-- Section slicing of the legacy header strategy (src/unnamed/part_001,
lines 23-34): the name is the raw capture (not trimmed). -/
def sectionsOfHeaderMatchesV1 (resp : Chars) :
    List (Nat × Chars × Nat) → Option (List Steps.Section2)
  | [] => some []
  | (idx, name, len) :: rest =>
    let startPos := idx + len
    let endPos := match rest with
      | (idx2, _, _) :: _ => idx2
      | [] => resp.length
    match extractCodeFromSectionV1 ((resp.drop startPos).take (endPos - startPos)) with
    | none => none
    | some code =>
      match sectionsOfHeaderMatchesV1 resp rest with
      | none => none
      | some ss => some ({ name := String.mk name, content := String.mk code } :: ss)

/-- The legacy header strategy: first pattern with more than one match
wins (src/unnamed/part_001, lines 19-37). -/
def headerSectionsV1 (s : String) : Option (List Steps.Section2) :=
  match (headerMatchListsV1 s).find? (fun ms => ms.length > 1) with
  | some ms => sectionsOfHeaderMatchesV1 s.data ms
  | none => some []

/-- The legacy code-block strategy (src/unnamed/part_001, lines 40-56):
the regex is six literal backticks, `/``````/g`, with no capture
groups, so `language` and `code` destructure to undefined and the
`code && code.trim().length > 20` guard rejects every match — the
strategy never produces a section. -/
def codeBlockSectionsV1 (s : String) : List Steps.Section2 :=
  (scanAll (fun l => if litStarts [bt, bt, bt, bt, bt, bt] l
      then some (((none : Option Chars), (none : Option Chars)), 6) else none) s.data).filterMap
    (fun m => match m.2 with
      | some code => if (trimChars code).length > 20 then
          some { name := "", content := String.mk (trimChars code) } else none
      | none => none)

/-- `createDefaultTodoApp` (src/unnamed/part_001, lines 123-179): the
fallback file content, a self-contained todo component. -/
def createDefaultTodoApp : String :=
  "import \x7b useState \x7d from \x27react\x27;\n\nfunction TodoApp() \x7b\n  const [todos, setTodos] = useState([]);\n  const [input, setInput] = useState(\x27\x27);\n\n  const addTodo = () => \x7b\n    if (input.trim()) \x7b\n      setTodos([...todos, \x7b id: Date.now(), text: input, completed: false \x7d]);\n      setInput(\x27\x27);\n    \x7d\n  \x7d;\n\n  const toggleTodo = (id) => \x7b\n    setTodos(todos.map(todo => \n      todo.id === id ? \x7b ...todo, completed: !todo.completed \x7d : todo\n    ));\n  \x7d;\n\n  const deleteTodo = (id) => \x7b\n    setTodos(todos.filter(todo => todo.id !== id));\n  \x7d;\n\n  return (\n    <div className=\x22container\x22>\n      <h1 className=\x22title\x22>Todo App</h1>\n      <div className=\x22input-section\x22>\n        <input\n          type=\x22text\x22\n          value=\x7binput\x7d\n          onChange=\x7b(e) => setInput(e.target.value)\x7d\n          placeholder=\x22Add new task\x22\n          className=\x22input\x22\n          onKeyPress=\x7b(e) => e.key === \x27Enter\x27 && addTodo()\x7d\n        />\n        <button onClick=\x7baddTodo\x7d className=\x22btn\x22>Add Task</button>\n      </div>\n      <ul className=\x22todo-list\x22>\n        \x7btodos.map(todo => (\n          <li key=\x7btodo.id\x7d className=\x7b\x60todo-item \x24\x7btodo.completed ? \x27completed\x27 : \x27\x27\x7d\x60\x7d>\n            <input\n              type=\x22checkbox\x22\n              checked=\x7btodo.completed\x7d\n              onChange=\x7b() => toggleTodo(todo.id)\x7d\n            />\n            <span>\x7btodo.text\x7d</span>\n            <button onClick=\x7b() => deleteTodo(todo.id)\x7d className=\x22delete-btn\x22>Remove</button>\n          </li>\n        ))\x7d\n      </ul>\n    </div>\n  );\n\x7d\n\nexport default TodoApp;"

/-- The fallback step pushed when no section was found
(src/unnamed/part_001, lines 70-78). -/
def fallbackStep : Types.Step :=
  { id := "step-0"
    title := "Create App.jsx"
    status := "completed"
    path := "src/App.jsx"
    code := createDefaultTodoApp }

/-- Step built from legacy section `i` (src/unnamed/part_001, lines
59-67): the path is always `src/<name>`. -/
def stepOfSectionV1 (i : Nat) (sec : Steps.Section2) : Types.Step :=
  { id := "step-" ++ toString i
    title := "Create " ++ sec.name
    status := "completed"
    path := "src/" ++ sec.name
    code := sec.content }

/-- The legacy `parseXml` (src/unnamed/part_001, lines 3-82).  `none`
models the TypeError thrown by `extractCodeFromSection` on a section
containing six consecutive backticks; otherwise the header sections
(or, vacuously, the code-block sections) become steps, and when no
section was found the single fallback step is returned. -/
def parseXml (s : String) : Option (List Types.Step) :=
  match headerSectionsV1 s with
  | none => none
  | some hs =>
    let secs := match hs with
      | [] => codeBlockSectionsV1 s
      | ss => ss
    match secs with
    | [] => some [fallbackStep]
    | ss => some (Steps.V2.enumMap stepOfSectionV1 0 ss)

end StepsLegacy

/-! Helper lemmas about the enumeration and scan combinators. -/

theorem enumMap_length (f : Nat → α → β) (n : Nat) (l : List α) :
    (Steps.V2.enumMap f n l).length = l.length := by
  induction l generalizing n with
  | nil => rfl
  | cons a t ih => simp [Steps.V2.enumMap, ih]

theorem enumMap_getElem? (f : Nat → α → β) (n : Nat) (l : List α) (i : Nat) :
    (Steps.V2.enumMap f n l)[i]? = (l[i]?).map (f (n + i)) := by
  induction l generalizing n i with
  | nil => simp [Steps.V2.enumMap]
  | cons a t ih =>
    cases i with
    | zero => simp [Steps.V2.enumMap]
    | succ j =>
      simp only [Steps.V2.enumMap, List.getElem?_cons_succ]
      rw [ih]
      have : n + (j + 1) = n + 1 + j := by omega
      rw [this]

theorem mem_scanAllF (step : Chars → Option (α × Nat)) (fuel : Nat) (l : Chars) (a : α)
    (h : a ∈ scanAllF step fuel l) : ∃ l' k, step l' = some (a, k) := by
  induction fuel generalizing l with
  | zero => simp [scanAllF] at h
  | succ n ih =>
    cases l with
    | nil => simp [scanAllF] at h
    | cons c cs =>
      rw [scanAllF] at h
      cases heq : step (c :: cs) with
      | some ak =>
        rw [heq] at h
        rcases List.mem_cons.mp h with h1 | h2
        · subst h1; exact ⟨c :: cs, ak.2, by rw [heq]⟩
        · exact ih _ h2
      | none =>
        rw [heq] at h
        exact ih _ h

theorem mem_scanAll (step : Chars → Option (α × Nat)) (l : Chars) (a : α)
    (h : a ∈ scanAll step l) : ∃ l' k, step l' = some (a, k) :=
  mem_scanAllF step l.length l a h

/-- If one list is a literal prefix of another, the shorter of two
prefixes of the same list is a prefix of the longer. -/
theorem litStarts_of_litStarts (x y l : Chars) (hx : litStarts x l = true)
    (hy : litStarts y l = true) (hlen : x.length ≤ y.length) :
    litStarts x y = true := by
  induction x generalizing y l with
  | nil => rfl
  | cons a xs ih =>
    cases l with
    | nil => simp [litStarts] at hx
    | cons c cs =>
      cases y with
      | nil => simp at hlen
      | cons b ys =>
        simp only [litStarts, Bool.decide_and, Bool.and_eq_true, decide_eq_true_eq] at hx hy
        simp only [litStarts, Bool.decide_and, Bool.and_eq_true, decide_eq_true_eq]
        exact ⟨hx.1.trans hy.1.symm, ih ys cs hx.2 hy.2 (by simpa using hlen)⟩

/-- Two suffix tests cannot both hold when neither suffix is a literal
prefix of the other (decided on the concrete suffixes). -/
theorem endsWith_excl (n a b : String)
    (hab : litStarts a.data.reverse b.data.reverse = false)
    (hba : litStarts b.data.reverse a.data.reverse = false)
    (ha : endsWithS n a = true) (hb : endsWithS n b = true) : False := by
  unfold endsWithS at ha hb
  rcases Nat.le_total a.data.reverse.length b.data.reverse.length with h | h
  · have := litStarts_of_litStarts _ _ _ ha hb h
    rw [hab] at this; exact absurd this (by simp)
  · have := litStarts_of_litStarts _ _ _ hb ha h
    rw [hba] at this; exact absurd this (by simp)

/-- Concrete response used to witness the tagged-block law: two tagged
blocks with junk around them and mixed tag case. -/
def respC1 : String :=
  "pre <BoltAction type=\x22file\x22 filePath=\x22src/App.tsx\x22>\n a \n</boltAction> mid <boltaction TYPE=\x22file\x22 filepath=\x22styles.css\x22 data-x=\x221\x22>body2</BOLTACTION> post"

/-- C1.  For every raw response with at least one tagged-block match,
`parseXml` returns exactly one step per match, in document order, with
path equal to the captured path attribute and code equal to the
trimmed body; the result is built from the tagged matches alone, so
the header and fenced-block strategies are skipped. -/
theorem C1_tagged_blocks_parse : ∀ s : String, Steps.xmlMatches s ≠ [] →
    Steps.parseXml s = Steps.V2.enumMap Steps.stepOfXmlMatch 0 (Steps.xmlMatches s) ∧
    (Steps.parseXml s).length = (Steps.xmlMatches s).length ∧
    ∀ (i : Nat) (p b : Chars), (Steps.xmlMatches s)[i]? = some (p, b) →
      (Steps.parseXml s)[i]? = some
        { id := "step-" ++ toString i
          title := "Create " ++ String.mk p
          status := "completed"
          path := String.mk p
          code := String.mk (trimChars b) } := by
  intro s hne
  have hx : Steps.parseXml s = Steps.V2.enumMap Steps.stepOfXmlMatch 0 (Steps.xmlMatches s) := by
    unfold Steps.parseXml
    cases h : Steps.xmlMatches s with
    | nil => exact absurd h hne
    | cons m ms => rfl
  refine ⟨hx, ?_, ?_⟩
  · rw [hx, enumMap_length]
  · intro i p b hib
    rw [hx, enumMap_getElem?, hib]
    simp [Steps.stepOfXmlMatch]

set_option maxRecDepth 100000 in
/-- Witness for C1 at the concrete two-block response. -/
theorem C1_witness :
    (Steps.parseXml respC1).length = (Steps.xmlMatches respC1).length ∧
    (Steps.parseXml respC1)[1]? = some
      { id := "step-1", title := "Create " ++ String.mk "styles.css".data,
        status := "completed", path := String.mk "styles.css".data,
        code := String.mk (trimChars "body2".data) } := by
  have h : Steps.xmlMatches respC1 ≠ [] := by decide
  exact ⟨(C1_tagged_blocks_parse respC1 h).2.1,
    (C1_tagged_blocks_parse respC1 h).2.2 1 "styles.css".data "body2".data (by decide)⟩

/-- The legacy code-block strategy never yields a section: its regex is
six literal backticks with no capture group, so the destructured `code`
is always undefined and the guard rejects every match. -/
theorem codeBlockSectionsV1_eq_nil (s : String) : StepsLegacy.codeBlockSectionsV1 s = [] := by
  unfold StepsLegacy.codeBlockSectionsV1
  rw [List.filterMap_eq_nil_iff]
  intro m hm
  obtain ⟨l', k, hl⟩ := mem_scanAll _ _ _ hm
  by_cases h6 : litStarts [bt, bt, bt, bt, bt, bt] l' = true
  · simp only [h6, if_true] at hl
    obtain ⟨rfl, rfl⟩ : m = ((none : Option Chars), (none : Option Chars)) ∧ k = 6 := by
      constructor <;> cases hl <;> rfl
    rfl
  · simp only [h6] at hl
    simp at hl

set_option maxRecDepth 100000 in
/-- C2 counterexample.  At the input `hello`, no strategy of the
current parser finds a section, and the parser returns zero steps, not
one: the claimed fallback synthesis is absent from the current
`parseXml`. -/
theorem C2_counterexample :
    Steps.xmlMatches "hello" = [] ∧
    Steps.V2.sections "hello" = [] ∧
    Steps.parseXml "hello" = [] ∧
    (Steps.parseXml "hello").length ≠ 1 := by decide

/-- C2 as amended.  When no strategy finds a section, the current
parser returns the empty step list (only logging a warning), while the
legacy parser returns exactly one step, the fallback todo-app file. -/
theorem C2_amended_fallback :
    (∀ s : String, Steps.xmlMatches s = [] → Steps.V2.sections s = [] →
        Steps.parseXml s = []) ∧
    (∀ s : String, StepsLegacy.headerSectionsV1 s = some [] →
        StepsLegacy.parseXml s = some [StepsLegacy.fallbackStep]) := by
  constructor
  · intro s h1 h2
    unfold Steps.parseXml
    rw [h1, h2]
    rfl
  · intro s h1
    unfold StepsLegacy.parseXml
    rw [h1, codeBlockSectionsV1_eq_nil]

set_option maxRecDepth 100000 in
/-- Witness for C2 at the concrete input `hello`. -/
theorem C2_witness :
    Steps.parseXml "hello" = [] ∧
    StepsLegacy.parseXml "hello" = some [StepsLegacy.fallbackStep] :=
  ⟨C2_amended_fallback.1 "hello" (by decide) (by decide),
   C2_amended_fallback.2 "hello" (by decide)⟩

/-- Fenced input whose single block has a trimmed body of exactly 20
characters. -/
def r20 : String := "```\nabcdefghijklmnopqrst```"

/-- Fenced input whose single block has a trimmed body of 5
characters. -/
def r5 : String := "```\nabcde```"

set_option maxRecDepth 100000 in
/-- C3 counterexample.  A single fenced block whose trimmed body has
exactly 20 characters meets the claimed 20-character minimum (it is
not shorter than 20), yet the strategy discards it and yields zero
sections: the source keeps a block only when the trimmed length is
strictly greater than 20. -/
theorem C3_counterexample :
    (Steps.V2.codeBlockMatches r20).length = 1 ∧
    (Steps.V2.codeBlockMatches r20).all (fun b => (trimChars b.2).length = 20) ∧
    Steps.V2.sectionsOfCodeBlocks 0 (Steps.V2.codeBlockMatches r20) = [] ∧
    Steps.parseXml r20 = [] := by decide

set_option maxRecDepth 100000 in
/-- C3 as amended.  A fenced block contributes a section exactly when
its trimmed body is strictly longer than 20 characters (so a 20-char
body is discarded); each surviving block yields one section whose
content is the trimmed body; and a single 5-character block still
yields zero sections. -/
theorem C3_amended_threshold :
    (∀ (n : Nat) (bs : List (Chars × Chars)),
        (Steps.V2.sectionsOfCodeBlocks n bs).map Steps.Section2.content =
          (bs.filter (fun b => (trimChars b.2).length > 20)).map
            (fun b => String.mk (trimChars b.2))) ∧
    (∀ (n : Nat) (bs : List (Chars × Chars)),
        (Steps.V2.sectionsOfCodeBlocks n bs).length =
          (bs.filter (fun b => (trimChars b.2).length > 20)).length) ∧
    ((Steps.V2.codeBlockMatches r5).length = 1 ∧
      Steps.V2.sectionsOfCodeBlocks 0 (Steps.V2.codeBlockMatches r5) = [] ∧
      Steps.parseXml r5 = []) := by
  have key : ∀ (n : Nat) (bs : List (Chars × Chars)),
      (Steps.V2.sectionsOfCodeBlocks n bs).map Steps.Section2.content =
        (bs.filter (fun b => (trimChars b.2).length > 20)).map
          (fun b => String.mk (trimChars b.2)) := by
    intro n bs
    induction bs generalizing n with
    | nil => rfl
    | cons b rest ih =>
      by_cases h : (trimChars b.2).length > 20
      · rw [Steps.V2.sectionsOfCodeBlocks, if_pos h,
          List.filter_cons_of_pos (by simpa using h), List.map_cons, List.map_cons, ih]
      · rw [Steps.V2.sectionsOfCodeBlocks, if_neg h,
          List.filter_cons_of_neg (by simpa using h), ih]
  refine ⟨key, ?_, by decide⟩
  intro n bs
  have := congrArg List.length (key n bs)
  simpa using this

/-- C4 counterexample.  The bare filename `projects.json` matches none
of the claimed root rules (it is not `index.html`, does not end in
`.css`, `.js`, `.tsx`, `.jsx` or `.ts`), so the claim places it at
`src/projects.json`; the resolver keeps it at the root. -/
theorem C4_counterexample :
    Steps.V2.resolveSectionPath "projects.json" = "projects.json" ∧
    Steps.V2.resolveSectionPath "projects.json" ≠ "src/projects.json" ∧
    "projects.json" ≠ "index.html" ∧
    endsWithS "projects.json" ".css" = false ∧
    endsWithS "projects.json" ".js" = false ∧
    endsWithS "projects.json" ".tsx" = false ∧
    endsWithS "projects.json" ".jsx" = false ∧
    endsWithS "projects.json" ".ts" = false := by decide

/-- C4 as amended.  Path-resolution law with the `projects.json`
exception: `index.html` and `projects.json` stay at the root; other
names ending in `.css` or `.js` stay at the root; names ending in
`.tsx`, `.jsx` or `.ts` go under `src/`; every other name also
defaults to `src/`. -/
theorem C4_amended_path_resolution :
    Steps.V2.resolveSectionPath "index.html" = "index.html" ∧
    Steps.V2.resolveSectionPath "projects.json" = "projects.json" ∧
    (∀ n : String, (endsWithS n ".tsx" ∨ endsWithS n ".jsx" ∨ endsWithS n ".ts") →
        Steps.V2.resolveSectionPath n = "src/" ++ n) ∧
    (∀ n : String, n ≠ "index.html" → n ≠ "projects.json" →
        (endsWithS n ".css" ∨ endsWithS n ".js") →
        Steps.V2.resolveSectionPath n = n) ∧
    (∀ n : String, n ≠ "index.html" → n ≠ "projects.json" →
        ¬(endsWithS n ".css" ∨ endsWithS n ".js") →
        Steps.V2.resolveSectionPath n = "src/" ++ n) := by
  refine ⟨by decide, by decide, ?_, ?_, ?_⟩
  · intro n h
    have hne1 : n ≠ "index.html" := by
      rintro rfl
      rcases h with h | h | h <;> revert h <;> decide
    have hne2 : n ≠ "projects.json" := by
      rintro rfl
      rcases h with h | h | h <;> revert h <;> decide
    have hcss : ¬ endsWithS n ".css" = true := by
      intro hc
      rcases h with h | h | h
      · exact endsWith_excl n ".tsx" ".css" (by decide) (by decide) h hc
      · exact endsWith_excl n ".jsx" ".css" (by decide) (by decide) h hc
      · exact endsWith_excl n ".ts" ".css" (by decide) (by decide) h hc
    have hjs : ¬ endsWithS n ".js" = true := by
      intro hc
      rcases h with h | h | h
      · exact endsWith_excl n ".tsx" ".js" (by decide) (by decide) h hc
      · exact endsWith_excl n ".jsx" ".js" (by decide) (by decide) h hc
      · exact endsWith_excl n ".ts" ".js" (by decide) (by decide) h hc
    unfold Steps.V2.resolveSectionPath
    rw [if_neg (by tauto), if_neg (by tauto)]
    rcases h with h | h | h
    · rw [if_pos (by tauto)]
    · rw [if_pos (by tauto)]
    · rw [if_pos (by tauto)]
  · intro n h1 h2 h
    unfold Steps.V2.resolveSectionPath
    rw [if_neg (by tauto), if_pos (by tauto)]
  · intro n h1 h2 h
    unfold Steps.V2.resolveSectionPath
    rw [if_neg (by tauto), if_neg (by tauto)]
    by_cases htsx : endsWithS n ".tsx" ∨ endsWithS n ".jsx" ∨ endsWithS n ".ts"
    · rw [if_pos (by tauto)]
    · rw [if_neg (by tauto)]

/-- Witness for C4 at concrete file names of each kind. -/
theorem C4_witness :
    Steps.V2.resolveSectionPath "Foo.tsx" = "src/Foo.tsx" ∧
    Steps.V2.resolveSectionPath "styles.css" = "styles.css" ∧
    Steps.V2.resolveSectionPath "readme.txt" = "src/readme.txt" :=
  ⟨C4_amended_path_resolution.2.2.1 "Foo.tsx" (Or.inl (by decide)),
   C4_amended_path_resolution.2.2.2.1 "styles.css" (by decide) (by decide) (Or.inl (by decide)),
   C4_amended_path_resolution.2.2.2.2 "readme.txt" (by decide) (by decide) (by decide)⟩

namespace Builder

/-!
Embedding of the step-to-file-tree assembly in `Builder.tsx`
(src/src/pages/Builder.tsx, lines 32-89) and of `convertStepsToFiles`
in the flat-list variant (src/unnamed/part_000, lines 192-210).
-/

/-- `FileItem` tree node (src/src/types.ts as used by Builder.tsx):
a file holds `content`, a folder holds `children`.  The JS assignment
`file.content = step.code` on a node whose type is `folder` only adds
a property that no consumer reads, so it is modelled as the identity
on folders. -/
inductive FItem where
  | file (name path content : String)
  | folder (name path : String) (children : List FItem)
deriving Repr

/-- Path of a node. -/
def FItem.path : FItem → String
  | .file _ p _ => p
  | .folder _ p _ => p

/-- JS `String.prototype.split` on a single separator character: never
returns an empty list (`""` splits to `[""]`). -/
def splitOnChar (sep : Char) : Chars → List Chars
  | [] => [[]]
  | c :: cs =>
    if c = sep then [] :: splitOnChar sep cs
    else match splitOnChar sep cs with
      | h :: t => (c :: h) :: t
      | [] => [[c]]

/-- `step.path.split("/")` (src/src/pages/Builder.tsx, line 38). -/
def splitSlash (s : String) : List String :=
  (splitOnChar '/' s.data).map String.mk

/-- Join with `/` (inverse of `splitSlash` used only in statements). -/
def joinSlash : List String → String
  | [] => ""
  | [s] => s
  | s :: rest => s ++ "/" ++ joinSlash rest

/-- Character-level companion of `joinSlash`. -/
def joinSlashC : List Chars → Chars
  | [] => []
  | [s] => s
  | s :: rest => s ++ '/' :: joinSlashC rest

/-- Final-segment update (src/src/pages/Builder.tsx, lines 48-60): the
first node whose path equals `cur` gets its content overwritten; a
folder node found here gets a `content` property no consumer reads,
modelled as unchanged. -/
def setContentNode (code : String) : FItem → FItem
  | .file n p _ => .file n p code
  | .folder n p ch => .folder n p ch

def setContentFirst (cur code : String) : List FItem → List FItem
  | [] => []
  | x :: xs =>
    if FItem.path x = cur then setContentNode code x :: xs
    else x :: setContentFirst cur code xs

/-- `currentFileStructure.find(x => x.path === currentFolder)`
(src/src/pages/Builder.tsx, lines 50 and 63). -/
def findPath (items : List FItem) (cur : String) : Option FItem :=
  items.find? (fun x => FItem.path x = cur)

/-- Replace the first node at path `cur` by a folder with the given
children (the JS code mutates the found folder's `children` array in
place). -/
def intoFolderNode (ch2 : List FItem) : FItem → FItem
  | .folder n p _ => .folder n p ch2
  | f => f

def intoFolder (cur : String) (ch2 : List FItem) : List FItem → List FItem
  | [] => []
  | x :: xs =>
    if FItem.path x = cur then intoFolderNode ch2 x :: xs
    else x :: intoFolder cur ch2 xs

/-- One step of the `while(parsedPath.length)` walk
(src/src/pages/Builder.tsx, lines 43-76).  `none` models the TypeError
thrown when the walk descends into a node that is a file
(`.children!` is undefined and the subsequent access throws). -/
def insertSegs (items : List FItem) (pfxPath code : String) : List String → Option (List FItem)
  | [] => some items
  | seg :: rest =>
    let cur := pfxPath ++ "/" ++ seg
    if rest.isEmpty then
      if items.any (fun x => FItem.path x = cur) then
        some (setContentFirst cur code items)
      else
        some (items ++ [FItem.file seg cur code])
    else
      let items1 :=
        if items.any (fun x => FItem.path x = cur) then items
        else items ++ [FItem.folder seg cur []]
      match findPath items1 cur with
      | some (FItem.folder _ _ ch) =>
        (match insertSegs ch cur code rest with
         | some ch2 => some (intoFolder cur ch2 items1)
         | none => none)
      | some (FItem.file _ _ _) => none
      | none => none

/-- One pending step (src/src/pages/Builder.tsx, lines 35-78): steps
with a falsy (empty) path or code are skipped by the
`if (step?.path && step?.code)` guard. -/
def insertStep (items : List FItem) (path code : String) : Option (List FItem) :=
  if path = "" ∨ code = "" then some items
  else insertSegs items "" code (splitSlash path)

/-- Process an ordered list of `(path, code)` pairs starting from a
tree (the Builder effect maps over all pending steps in order). -/
def processSteps (items : List FItem) : List (String × String) → Option (List FItem)
  | [] => some items
  | (p, c) :: rest =>
    match insertStep items p c with
    | some items2 => processSteps items2 rest
    | none => none

/-- All `(path, content)` pairs of File nodes in a tree, in traversal
order. -/
def filePathsList : List FItem → List (String × String)
  | [] => []
  | FItem.file _ p c :: xs => (p, c) :: filePathsList xs
  | FItem.folder _ _ ch :: xs => filePathsList ch ++ filePathsList xs

/-- `FileItem` flat record produced by `convertStepsToFiles`
(src/unnamed/part_000, lines 192-210): `type` is always `file`. -/
structure FlatItem where
  name : String
  path : String
  content : String
deriving DecidableEq, Repr

/-- Ordered-map `set` with JS `Map.prototype.set` semantics: an
existing key keeps its position and gets the new value, a new key is
appended. -/
def msetF (m : List (String × FlatItem)) (k : String) (v : FlatItem) : List (String × FlatItem) :=
  if m.any (fun e => e.1 = k) then m.map (fun e => if e.1 = k then (k, v) else e)
  else m ++ [(k, v)]

/-- `convertStepsToFiles` (src/unnamed/part_000, lines 192-210): steps
with truthy path and code are keyed by path in a `Map` (overwriting
earlier entries), the values are returned in insertion order. -/
def convertStepsToFiles (steps : List Types.Step) : List FlatItem :=
  (steps.foldl
    (fun m st =>
      if ¬ st.path = "" ∧ ¬ st.code = "" then
        msetF m st.path
          { name := (splitSlash st.path).getLastD ""
            path := st.path
            content := st.code }
      else m)
    []).map (fun e => e.2)

end Builder

namespace Builder

/-- The tree produced by inserting one path into an empty level: a
chain of folders ending in a file. -/
def chainOf (pfx c : String) : List String → List FItem
  | [] => []
  | [seg] => [.file seg (pfx ++ "/" ++ seg) c]
  | seg :: rest => [.folder seg (pfx ++ "/" ++ seg) (chainOf (pfx ++ "/" ++ seg) c rest)]

theorem insertSegs_cons_cons (items : List FItem) (pfx code seg s2 : String) (r2 : List String) :
    insertSegs items pfx code (seg :: s2 :: r2) =
      match findPath
          (if items.any (fun x => FItem.path x = pfx ++ "/" ++ seg) then items
           else items ++ [FItem.folder seg (pfx ++ "/" ++ seg) []]) (pfx ++ "/" ++ seg) with
      | some (FItem.folder _ _ ch) =>
        (match insertSegs ch (pfx ++ "/" ++ seg) code (s2 :: r2) with
         | some ch2 =>
            some (intoFolder (pfx ++ "/" ++ seg) ch2
              (if items.any (fun x => FItem.path x = pfx ++ "/" ++ seg) then items
               else items ++ [FItem.folder seg (pfx ++ "/" ++ seg) []]))
         | none => none)
      | some (FItem.file _ _ _) => none
      | none => none := rfl

theorem insertSegs_empty (pfx c : String) : ∀ (segs : List String), segs ≠ [] →
    insertSegs [] pfx c segs = some (chainOf pfx c segs) := by
  intro segs
  induction segs generalizing pfx with
  | nil => intro h; exact absurd rfl h
  | cons seg rest ih =>
    intro _
    cases rest with
    | nil => rfl
    | cons s2 r2 =>
      have hrec := ih (pfx ++ "/" ++ seg) (by simp)
      rw [insertSegs_cons_cons]
      rw [if_neg (by simp)]
      have hfind : findPath ([] ++ [FItem.folder seg (pfx ++ "/" ++ seg) []]) (pfx ++ "/" ++ seg) =
          some (FItem.folder seg (pfx ++ "/" ++ seg) []) := by
        simp [findPath, FItem.path]
      rw [hfind]
      simp [hrec, intoFolder, intoFolderNode, FItem.path, chainOf]

theorem insertSegs_chain (pfx c1 c2 : String) : ∀ (segs : List String), segs ≠ [] →
    insertSegs (chainOf pfx c1 segs) pfx c2 segs = some (chainOf pfx c2 segs) := by
  intro segs
  induction segs generalizing pfx with
  | nil => intro h; exact absurd rfl h
  | cons seg rest ih =>
    intro _
    cases rest with
    | nil =>
      simp [insertSegs, chainOf, setContentFirst, setContentNode, FItem.path]
    | cons s2 r2 =>
      have hrec := ih (pfx ++ "/" ++ seg) (by simp)
      rw [show chainOf pfx c1 (seg :: s2 :: r2) =
        [FItem.folder seg (pfx ++ "/" ++ seg) (chainOf (pfx ++ "/" ++ seg) c1 (s2 :: r2))] from rfl]
      rw [insertSegs_cons_cons]
      rw [if_pos (by simp [FItem.path])]
      have hfind : findPath [FItem.folder seg (pfx ++ "/" ++ seg)
            (chainOf (pfx ++ "/" ++ seg) c1 (s2 :: r2))] (pfx ++ "/" ++ seg) =
          some (FItem.folder seg (pfx ++ "/" ++ seg) (chainOf (pfx ++ "/" ++ seg) c1 (s2 :: r2))) := by
        simp [findPath, FItem.path]
      rw [hfind]
      simp [hrec, intoFolder, intoFolderNode, FItem.path, chainOf]

theorem splitOnChar_ne_nil (sep : Char) (l : Chars) : splitOnChar sep l ≠ [] := by
  cases l with
  | nil => simp [splitOnChar]
  | cons c cs =>
    rw [splitOnChar]
    by_cases h : c = sep
    · simp [h]
    · rw [if_neg h]
      cases hs : splitOnChar sep cs <;> simp

theorem joinSlash_splitSlash (p : String) : joinSlash (splitSlash p) = p := by
  have hdata : ∀ L : List Chars, (joinSlash (L.map String.mk)).data = joinSlashC L := by
    intro L
    induction L with
    | nil => rfl
    | cons s rest ih =>
      cases rest with
      | nil => rfl
      | cons r t =>
        simp only [List.map_cons, joinSlash, joinSlashC, String.data_append] at ih ⊢
        rw [ih]
        simp
  have hsplit : ∀ l : Chars, joinSlashC (splitOnChar '/' l) = l := by
    intro l
    induction l with
    | nil => rfl
    | cons c cs ih =>
      rw [splitOnChar]
      by_cases h : c = '/'
      · subst h
        rw [if_pos rfl]
        cases hs : splitOnChar '/' cs with
        | nil => exact absurd hs (splitOnChar_ne_nil _ _)
        | cons h0 t0 =>
          rw [hs] at ih
          simp only [joinSlashC, List.nil_append]
          rw [ih]
      · rw [if_neg h]
        cases hs : splitOnChar '/' cs with
        | nil => exact absurd hs (splitOnChar_ne_nil _ _)
        | cons h0 t0 =>
          rw [hs] at ih
          cases t0 with
          | nil =>
            simp only [joinSlashC] at ih
            simp only [joinSlashC, ih]
          | cons t1 t2 =>
            simp only [joinSlashC, List.cons_append] at ih ⊢
            rw [ih]
  apply String.ext
  rw [splitSlash, hdata, hsplit]

end Builder

namespace Builder

/-- A segment name contains no slash. -/
def noSlash (s : String) : Prop := '/' ∉ s.data

/-- Well-formedness of a node under a path prefix, as established by
the Builder walk: the node path extends the prefix by `/name` with a
slash-free name, and folder children are well-formed under the folder
path with pairwise-distinct paths. -/
inductive GoodI : String → FItem → Prop where
  | file : ∀ (pfx n c : String), noSlash n → GoodI pfx (.file n (pfx ++ "/" ++ n) c)
  | folder : ∀ (pfx n : String) (ch : List FItem), noSlash n →
      (∀ y ∈ ch, GoodI (pfx ++ "/" ++ n) y) →
      (ch.map FItem.path).Nodup →
      GoodI pfx (.folder n (pfx ++ "/" ++ n) ch)

/-- Well-formedness of one tree level. -/
def GoodL (pfx : String) (items : List FItem) : Prop :=
  (∀ x ∈ items, GoodI pfx x) ∧ (items.map FItem.path).Nodup

theorem goodL_nil (pfx : String) : GoodL pfx [] := ⟨by simp, by simp⟩

theorem goodI_path (pfx : String) (x : FItem) (h : GoodI pfx x) :
    ∃ n : String, noSlash n ∧ FItem.path x = pfx ++ "/" ++ n := by
  cases h with
  | file pfx n c hns => exact ⟨n, hns, rfl⟩
  | folder pfx n ch hns _ _ => exact ⟨n, hns, rfl⟩

theorem goodI_file_inv (pfx n p c : String) (h : GoodI pfx (FItem.file n p c)) :
    p = pfx ++ "/" ++ n ∧ noSlash n := by
  cases h with
  | file pfx n c hns => exact ⟨rfl, hns⟩

theorem goodI_folder_inv (pfx n p : String) (ch : List FItem)
    (h : GoodI pfx (FItem.folder n p ch)) :
    p = pfx ++ "/" ++ n ∧ noSlash n ∧ GoodL p ch := by
  cases h with
  | folder pfx n ch hns hch hnd => exact ⟨rfl, hns, hch, hnd⟩

theorem setContentNode_path (code : String) (x : FItem) :
    FItem.path (setContentNode code x) = FItem.path x := by
  cases x <;> rfl

theorem intoFolderNode_path (ch2 : List FItem) (x : FItem) :
    FItem.path (intoFolderNode ch2 x) = FItem.path x := by
  cases x <;> rfl

theorem setContentFirst_paths (cur code : String) : ∀ items : List FItem,
    (setContentFirst cur code items).map FItem.path = items.map FItem.path := by
  intro items
  induction items with
  | nil => rfl
  | cons x xs ih =>
    rw [setContentFirst]
    by_cases h : FItem.path x = cur
    · rw [if_pos h]
      simp [setContentNode_path]
    · rw [if_neg h]
      simp [ih]

theorem goodL_cons_iff (pfx : String) (x : FItem) (xs : List FItem) :
    GoodL pfx (x :: xs) ↔
      GoodI pfx x ∧ GoodL pfx xs ∧ FItem.path x ∉ xs.map FItem.path := by
  constructor
  · intro ⟨hg, hnd⟩
    rw [List.map_cons] at hnd
    obtain ⟨hx, hxs⟩ := List.nodup_cons.mp hnd
    exact ⟨hg x (by simp), ⟨fun y hy => hg y (by simp [hy]), hxs⟩, hx⟩
  · intro ⟨hx, ⟨hg, hnd⟩, hni⟩
    refine ⟨?_, ?_⟩
    · intro y hy
      rcases List.mem_cons.mp hy with rfl | hy2
      · exact hx
      · exact hg y hy2
    · rw [List.map_cons]
      exact List.nodup_cons.mpr ⟨hni, hnd⟩

theorem setContentNode_good (pfx code : String) (x : FItem) (h : GoodI pfx x) :
    GoodI pfx (setContentNode code x) := by
  cases x with
  | file n p c =>
    obtain ⟨hp, hns⟩ := goodI_file_inv pfx n p c h
    rw [setContentNode, hp]
    exact GoodI.file pfx n code hns
  | folder n p ch => exact h

theorem setContentFirst_good (pfx cur code : String) : ∀ items : List FItem,
    GoodL pfx items → GoodL pfx (setContentFirst cur code items) := by
  intro items
  induction items with
  | nil => intro h; exact h
  | cons x xs ih =>
    intro hgl
    obtain ⟨hx, hxs, hni⟩ := (goodL_cons_iff pfx x xs).mp hgl
    rw [setContentFirst]
    by_cases h : FItem.path x = cur
    · rw [if_pos h]
      refine (goodL_cons_iff pfx _ xs).mpr ⟨setContentNode_good pfx code x hx, hxs, ?_⟩
      rw [setContentNode_path]
      exact hni
    · rw [if_neg h]
      refine (goodL_cons_iff pfx x _).mpr ⟨hx, ih hxs, ?_⟩
      rw [setContentFirst_paths]
      exact hni

theorem intoFolder_paths (cur : String) (ch2 : List FItem) : ∀ items : List FItem,
    (intoFolder cur ch2 items).map FItem.path = items.map FItem.path := by
  intro items
  induction items with
  | nil => rfl
  | cons x xs ih =>
    rw [intoFolder]
    by_cases h : FItem.path x = cur
    · rw [if_pos h]
      simp [intoFolderNode_path]
    · rw [if_neg h]
      simp [ih]

theorem findPath_mem (items : List FItem) (cur : String) (x : FItem)
    (h : findPath items cur = some x) : x ∈ items ∧ FItem.path x = cur := by
  unfold findPath at h
  refine ⟨List.mem_of_find?_eq_some h, ?_⟩
  have := List.find?_some h
  simpa using this

theorem intoFolder_good (pfx cur : String) (ch2 : List FItem) : ∀ items : List FItem,
    GoodL pfx items →
    (∀ n p ch, findPath items cur = some (FItem.folder n p ch) → GoodL p ch2) →
    GoodL pfx (intoFolder cur ch2 items) := by
  intro items
  induction items with
  | nil => intro h _; exact h
  | cons x xs ih =>
    intro hgl hrep
    obtain ⟨hx, hxs, hni⟩ := (goodL_cons_iff pfx x xs).mp hgl
    rw [intoFolder]
    by_cases h : FItem.path x = cur
    · rw [if_pos h]
      cases x with
      | file n p c =>
        exact (goodL_cons_iff pfx _ xs).mpr ⟨hx, hxs, hni⟩
      | folder n p ch =>
        have hfind : findPath (FItem.folder n p ch :: xs) cur = some (FItem.folder n p ch) := by
          unfold findPath
          rw [List.find?_cons_of_pos _ (by simp [h])]
        have hch2 : GoodL p ch2 := hrep n p ch hfind
        obtain ⟨hp, hns, _⟩ := goodI_folder_inv pfx n p ch hx
        refine (goodL_cons_iff pfx _ xs).mpr ⟨?_, hxs, ?_⟩
        · rw [intoFolderNode, hp]
          rw [hp] at hch2
          exact GoodI.folder pfx n ch2 hns hch2.1 hch2.2
        · rw [intoFolderNode_path]
          exact hni
    · rw [if_neg h]
      have hrep2 : ∀ n p ch, findPath xs cur = some (FItem.folder n p ch) → GoodL p ch2 := by
        intro n p ch hf
        apply hrep n p ch
        unfold findPath at hf ⊢
        rw [List.find?_cons_of_neg _ (by simp [h])]
        exact hf
      refine (goodL_cons_iff pfx x _).mpr ⟨hx, ih hxs hrep2, ?_⟩
      rw [intoFolder_paths]
      exact hni

end Builder

namespace Builder

theorem any_path_false (items : List FItem) (cur : String)
    (h : (items.any fun x => FItem.path x = cur) = false) :
    ∀ x ∈ items, FItem.path x ≠ cur := by
  intro x hx
  have := List.any_eq_false.mp h x hx
  simpa using this

theorem append_one_good (pfx cur : String) (items : List FItem) (new : FItem)
    (hgl : GoodL pfx items) (hnew : GoodI pfx new)
    (hfresh : ∀ x ∈ items, FItem.path x ≠ cur) (hp : FItem.path new = cur) :
    GoodL pfx (items ++ [new]) := by
  obtain ⟨hg, hnd⟩ := hgl
  refine ⟨?_, ?_⟩
  · intro y hy
    rcases List.mem_append.mp hy with hy1 | hy2
    · exact hg y hy1
    · rw [List.mem_singleton.mp hy2]
      exact hnew
  · rw [List.map_append]
    rw [List.nodup_append]
    refine ⟨hnd, by simp, ?_⟩
    intro q hq
    simp only [List.map_cons, List.map_nil, List.mem_singleton]
    intro hq2
    obtain ⟨x, hx, rfl⟩ := List.mem_map.mp hq
    exact hfresh x hx (hq2.trans hp)

theorem insertSegs_good : ∀ (segs : List String) (items items2 : List FItem) (pfx code : String),
    (∀ s ∈ segs, noSlash s) → GoodL pfx items →
    insertSegs items pfx code segs = some items2 → GoodL pfx items2 := by
  intro segs
  induction segs with
  | nil =>
    intro items items2 pfx code _ hgl heq
    cases heq
    exact hgl
  | cons seg rest ih =>
    intro items items2 pfx code hns hgl heq
    cases rest with
    | nil =>
      rw [insertSegs] at heq
      simp only [List.isEmpty_nil, if_true] at heq
      by_cases hany : (items.any fun x => FItem.path x = pfx ++ "/" ++ seg) = true
      · rw [if_pos hany] at heq
        cases heq
        exact setContentFirst_good pfx _ code items hgl
      · rw [if_neg hany] at heq
        cases heq
        refine append_one_good pfx (pfx ++ "/" ++ seg) items _ hgl
          (GoodI.file pfx seg code (hns seg (by simp)))
          (any_path_false items _ (by revert hany; cases items.any fun x => FItem.path x = pfx ++ "/" ++ seg <;> simp))
          rfl
    | cons s2 r2 =>
      rw [insertSegs_cons_cons] at heq
      set items1 := (if items.any (fun x => FItem.path x = pfx ++ "/" ++ seg) then items
           else items ++ [FItem.folder seg (pfx ++ "/" ++ seg) []]) with hi1
      have hgl1 : GoodL pfx items1 := by
        rw [hi1]
        by_cases hany : (items.any fun x => FItem.path x = pfx ++ "/" ++ seg) = true
        · rw [if_pos hany]; exact hgl
        · rw [if_neg hany]
          refine append_one_good pfx (pfx ++ "/" ++ seg) items _ hgl
            (GoodI.folder pfx seg [] (hns seg (by simp)) (by simp) (by simp))
            (any_path_false items _ (by revert hany; cases items.any fun x => FItem.path x = pfx ++ "/" ++ seg <;> simp))
            rfl
      cases hfind : findPath items1 (pfx ++ "/" ++ seg) with
      | none => rw [hfind] at heq; cases heq
      | some x =>
        cases x with
        | file n p c => rw [hfind] at heq; cases heq
        | folder n p ch =>
          rw [hfind] at heq
          dsimp only [] at heq
          obtain ⟨hmem, hpath⟩ := findPath_mem items1 _ _ hfind
          have hgood := hgl1.1 _ hmem
          obtain ⟨hp, hnsn, hglch⟩ := goodI_folder_inv pfx n p ch hgood
          cases hrec : insertSegs ch (pfx ++ "/" ++ seg) code (s2 :: r2) with
          | none => rw [hrec] at heq; cases heq
          | some ch2 =>
            rw [hrec] at heq
            cases heq
            have hpcur : p = pfx ++ "/" ++ seg := by
              simpa [FItem.path] using hpath
            have hglch2 : GoodL (pfx ++ "/" ++ seg) ch2 := by
              apply ih ch ch2 (pfx ++ "/" ++ seg) code (fun s hs => hns s (by simp [hs]))
              · rw [← hpcur]; exact hglch
              · exact hrec
            apply intoFolder_good pfx (pfx ++ "/" ++ seg) ch2 items1 hgl1
            intro n2 p2 ch3 hf2
            rw [hfind] at hf2
            cases hf2
            rw [hpcur]
            exact hglch2

theorem splitOnChar_not_mem (sep : Char) : ∀ (l : Chars) (piece : Chars),
    piece ∈ splitOnChar sep l → sep ∉ piece := by
  intro l
  induction l with
  | nil =>
    intro piece h
    rw [splitOnChar] at h
    rw [List.mem_singleton.mp h]
    simp
  | cons c cs ih =>
    intro piece h
    rw [splitOnChar] at h
    by_cases hc : c = sep
    · rw [if_pos hc] at h
      rcases List.mem_cons.mp h with rfl | h2
      · simp
      · exact ih piece h2
    · rw [if_neg hc] at h
      cases hs : splitOnChar sep cs with
      | nil => exact absurd hs (splitOnChar_ne_nil _ _)
      | cons h0 t0 =>
        rw [hs] at h
        rcases List.mem_cons.mp h with rfl | h2
        · intro hmem
          rcases List.mem_cons.mp hmem with rfl | hmem2
          · exact hc rfl
          · exact ih h0 (by rw [hs]; simp) hmem2
        · exact ih piece (by rw [hs]; simp [h2])

theorem splitSlash_noSlash (p : String) : ∀ s ∈ splitSlash p, noSlash s := by
  intro s hs
  unfold splitSlash at hs
  obtain ⟨piece, hpiece, rfl⟩ := List.mem_map.mp hs
  exact splitOnChar_not_mem '/' p.data piece hpiece

theorem insertStep_good (items items2 : List FItem) (path code : String)
    (hgl : GoodL "" items) (heq : insertStep items path code = some items2) :
    GoodL "" items2 := by
  unfold insertStep at heq
  by_cases h : path = "" ∨ code = ""
  · rw [if_pos h] at heq
    cases heq
    exact hgl
  · rw [if_neg h] at heq
    exact insertSegs_good (splitSlash path) items items2 "" code (splitSlash_noSlash path) hgl heq

theorem processSteps_good : ∀ (pairs : List (String × String)) (items items2 : List FItem),
    GoodL "" items → processSteps items pairs = some items2 → GoodL "" items2 := by
  intro pairs
  induction pairs with
  | nil =>
    intro items items2 hgl heq
    cases heq
    exact hgl
  | cons pc rest ih =>
    intro items items2 hgl heq
    rw [processSteps] at heq
    cases hstep : insertStep items pc.1 pc.2 with
    | none => rw [hstep] at heq; cases heq
    | some itemsM =>
      rw [hstep] at heq
      exact ih itemsM items2 (insertStep_good items itemsM pc.1 pc.2 hgl hstep) heq

end Builder

namespace Builder

theorem filePathsList_cons (x : FItem) (xs : List FItem) :
    filePathsList (x :: xs) = filePathsList [x] ++ filePathsList xs := by
  cases x <;> simp [filePathsList]

theorem mem_filePathsList (q c : String) : ∀ items : List FItem,
    (q, c) ∈ filePathsList items → ∃ x ∈ items, (q, c) ∈ filePathsList [x] := by
  intro items
  induction items with
  | nil => intro h; simp [filePathsList] at h
  | cons x xs ih =>
    intro h
    rw [filePathsList_cons] at h
    rcases List.mem_append.mp h with h1 | h2
    · exact ⟨x, by simp, h1⟩
    · obtain ⟨y, hy, hm⟩ := ih h2
      exact ⟨y, by simp [hy], hm⟩

theorem path_data (pfx n : String) : (pfx ++ "/" ++ n).data = pfx.data ++ '/' :: n.data := by
  simp [String.data_append]

/-- Every file path inside a well-formed node extends the prefix by a
slash, the node name, and either nothing or a slash-started tail. -/
theorem files_shape (pfx : String) (x : FItem) (h : GoodI pfx x) :
    ∀ q c : String, (q, c) ∈ filePathsList [x] →
      ∃ (n : String) (tail : Chars), noSlash n ∧ FItem.path x = pfx ++ "/" ++ n ∧
        q.data = pfx.data ++ '/' :: (n.data ++ tail) ∧
        (tail = [] ∨ ∃ t, tail = '/' :: t) := by
  induction h with
  | file pfx n c2 hns =>
    intro q c hq
    simp only [filePathsList, List.mem_singleton, Prod.mk.injEq] at hq
    obtain ⟨rfl, rfl⟩ := hq
    exact ⟨n, [], hns, rfl, by rw [path_data]; simp, Or.inl rfl⟩
  | folder pfx n ch hns hch hnd ih =>
    intro q c hq
    simp only [filePathsList, List.append_nil] at hq
    obtain ⟨y, hy, hm⟩ := mem_filePathsList q c ch hq
    obtain ⟨m, tail2, hmns, hpath, hdata, _⟩ := ih y hy q c hm
    refine ⟨n, '/' :: (m.data ++ tail2), hns, rfl, ?_, Or.inr ⟨_, rfl⟩⟩
    rw [hdata, path_data]
    simp [List.append_assoc]

theorem seg_eq : ∀ (a b ta tb : Chars), ('/' ∉ a) → ('/' ∉ b) →
    (ta = [] ∨ ∃ t, ta = '/' :: t) → (tb = [] ∨ ∃ t, tb = '/' :: t) →
    a ++ ta = b ++ tb → a = b := by
  intro a
  induction a with
  | nil =>
    intro b ta tb _ hb hta _ heq
    cases b with
    | nil => rfl
    | cons d bs =>
      rcases hta with rfl | ⟨t, rfl⟩
      · simp at heq
      · rw [List.nil_append, List.cons_append] at heq
        have hd : d = '/' := by
          have := congrArg (List.head? ·) heq
          simpa using this.symm
        exact absurd (hd ▸ List.mem_cons_self d bs) hb
  | cons z zs ih =>
    intro b ta tb ha hb hta htb heq
    cases b with
    | nil =>
      rcases htb with rfl | ⟨t, rfl⟩
      · simp at heq
      · rw [List.nil_append, List.cons_append] at heq
        have hz : z = '/' := by
          have := congrArg (List.head? ·) heq
          simpa using this
        exact absurd (hz ▸ List.mem_cons_self z zs) ha
    | cons y bs =>
      rw [List.cons_append, List.cons_append] at heq
      have hzy : z = y := by
        have := congrArg (List.head? ·) heq
        simpa using this
      have htail : zs ++ ta = bs ++ tb := by
        have := congrArg (List.tail ·) heq
        simpa using this
      rw [hzy]
      have := ih bs ta tb (fun hm => ha (List.mem_cons_of_mem z hm))
        (fun hm => hb (List.mem_cons_of_mem y hm)) hta htb htail
      rw [this]

theorem files_fst_mem (q : String) (items : List FItem)
    (h : q ∈ (filePathsList items).map Prod.fst) : ∃ c, (q, c) ∈ filePathsList items := by
  obtain ⟨⟨q2, c⟩, hm, rfl⟩ := List.mem_map.mp h
  exact ⟨c, hm⟩

theorem files_nodup_list (pfx : String) : ∀ items : List FItem,
    (∀ x ∈ items, GoodI pfx x) →
    ((items.map FItem.path).Nodup) →
    (∀ x ∈ items, ((filePathsList [x]).map Prod.fst).Nodup) →
    ((filePathsList items).map Prod.fst).Nodup := by
  intro items
  induction items with
  | nil => intro _ _ _; simp [filePathsList]
  | cons x xs ih =>
    intro hg hnd hone
    rw [filePathsList_cons, List.map_append, List.nodup_append]
    rw [List.map_cons] at hnd
    obtain ⟨hx, hxs⟩ := List.nodup_cons.mp hnd
    refine ⟨hone x (by simp), ih (fun y hy => hg y (by simp [hy])) hxs
      (fun y hy => hone y (by simp [hy])), ?_⟩
    intro q hq hq2
    obtain ⟨c, hqc⟩ := files_fst_mem q [x] hq
    obtain ⟨c2, hqc2⟩ := files_fst_mem q xs hq2
    obtain ⟨y, hy, hmy⟩ := mem_filePathsList q c2 xs hqc2
    obtain ⟨n1, t1, hns1, hpath1, hdata1, htail1⟩ := files_shape pfx x (hg x (by simp)) q c hqc
    obtain ⟨n2, t2, hns2, hpath2, hdata2, htail2⟩ := files_shape pfx y (hg y (by simp [hy])) q c2 hmy
    have hne : n1 ≠ n2 := by
      intro hnn
      apply hx
      rw [hpath1, hnn, ← hpath2]
      exact List.mem_map_of_mem FItem.path hy
    apply hne
    have h12 : pfx.data ++ '/' :: (n1.data ++ t1) = pfx.data ++ '/' :: (n2.data ++ t2) :=
      hdata1.symm.trans hdata2
    have h13 := List.append_cancel_left h12
    have hcat : n1.data ++ t1 = n2.data ++ t2 := by
      simpa using h13
    exact String.ext (seg_eq n1.data n2.data t1 t2 hns1 hns2 htail1 htail2 hcat)

theorem files_nodup (pfx : String) (x : FItem) (h : GoodI pfx x) :
    ((filePathsList [x]).map Prod.fst).Nodup := by
  induction h with
  | file pfx n c hns => simp [filePathsList]
  | folder pfx n ch hns hch hnd ih =>
    have : filePathsList [FItem.folder n (pfx ++ "/" ++ n) ch] = filePathsList ch := by
      simp [filePathsList]
    rw [this]
    exact files_nodup_list (pfx ++ "/" ++ n) ch hch hnd ih

theorem goodL_files_nodup (pfx : String) (items : List FItem) (h : GoodL pfx items) :
    ((filePathsList items).map Prod.fst).Nodup :=
  files_nodup_list pfx items h.1 h.2 (fun x hx => files_nodup pfx x (h.1 x hx))

end Builder

namespace Builder

theorem filePathsList_chain (pfx c : String) : ∀ (segs : List String), segs ≠ [] →
    filePathsList (chainOf pfx c segs) = [(pfx ++ "/" ++ joinSlash segs, c)] := by
  intro segs
  induction segs generalizing pfx with
  | nil => intro h; exact absurd rfl h
  | cons seg rest ih =>
    intro _
    cases rest with
    | nil => simp [chainOf, filePathsList, joinSlash]
    | cons s2 r2 =>
      have hrec := ih (pfx ++ "/" ++ seg) (by simp)
      simp only [chainOf, filePathsList, hrec, joinSlash, List.append_nil]
      simp [String.append_assoc]

end Builder

theorem empty_append_str (s : String) : "" ++ s = s := by
  apply String.ext
  simp [String.data_append]

theorem splitSlash_ne_nil (p : String) : Builder.splitSlash p ≠ [] := by
  unfold Builder.splitSlash
  intro h
  exact Builder.splitOnChar_ne_nil '/' p.data (List.map_eq_nil_iff.mp h)

/-- C5 counterexample.  Feeding the pairs `[(p, c1), (p, c2)]` with
`c2 = ""` to the Builder assembler leaves the file at `p` holding
`c1`: the `if (step?.path && step?.code)` guard skips a step with
empty content, so the later pair does not overwrite and the tree does
not hold `c2`. -/
theorem C5_counterexample :
    Builder.processSteps [] [("src/App.tsx", "x"), ("src/App.tsx", "")] =
      some [Builder.FItem.folder "src" "/src"
        [Builder.FItem.file "App.tsx" "/src/App.tsx" "x"]] ∧
    Builder.filePathsList
        [Builder.FItem.folder "src" "/src"
          [Builder.FItem.file "App.tsx" "/src/App.tsx" "x"]] =
      [("/src/App.tsx", "x")] ∧
    ("x" : String) ≠ "" := by
  refine ⟨by rfl, by simp [Builder.filePathsList], by decide⟩

/-- C5 as amended.  For every pair list the assembled tree (when the
walk does not throw) has pairwise-distinct File paths; the overwrite
law holds for a nonempty path and a nonempty second content: the tree
holds exactly one File node at the walked path `/p`, with content
`c2`; and `convertStepsToFiles` keyed by path behaves the same way on
two truthy steps with one path.  A pair with empty path or empty
content is skipped by the truthiness guard. -/
theorem C5_amended_assembler :
    (∀ (pairs : List (String × String)) (t : List Builder.FItem),
        Builder.processSteps [] pairs = some t →
        ((Builder.filePathsList t).map Prod.fst).Nodup) ∧
    (∀ p c1 c2 : String, p ≠ "" → c2 ≠ "" →
        ∃ t, Builder.processSteps [] [(p, c1), (p, c2)] = some t ∧
          Builder.filePathsList t = [("/" ++ p, c2)]) ∧
    (∀ st1 st2 : Types.Step, st1.path = st2.path → st1.path ≠ "" →
        st1.code ≠ "" → st2.code ≠ "" →
        Builder.convertStepsToFiles [st1, st2] =
          [{ name := (Builder.splitSlash st1.path).getLastD ""
             path := st1.path
             content := st2.code }]) := by
  refine ⟨?_, ?_, ?_⟩
  · intro pairs t h
    exact Builder.goodL_files_nodup "" t
      (Builder.processSteps_good pairs [] t (Builder.goodL_nil "") h)
  · intro p c1 c2 hp hc2
    have hsegs := splitSlash_ne_nil p
    have hfiles : Builder.filePathsList (Builder.chainOf "" c2 (Builder.splitSlash p)) =
        [("/" ++ p, c2)] := by
      rw [Builder.filePathsList_chain "" c2 _ hsegs, Builder.joinSlash_splitSlash]
      rw [String.append_assoc, empty_append_str]
    by_cases hc1 : c1 = ""
    · refine ⟨Builder.chainOf "" c2 (Builder.splitSlash p), ?_, hfiles⟩
      have h1 : Builder.insertStep [] p c1 = some [] := by
        unfold Builder.insertStep
        rw [if_pos (Or.inr hc1)]
      have h2 : Builder.insertStep [] p c2 =
          some (Builder.chainOf "" c2 (Builder.splitSlash p)) := by
        unfold Builder.insertStep
        rw [if_neg (by push_neg; exact ⟨hp, hc2⟩)]
        exact Builder.insertSegs_empty "" c2 _ hsegs
      simp only [Builder.processSteps]
      rw [h1]
      simp only [Builder.processSteps]
      rw [h2]
    · refine ⟨Builder.chainOf "" c2 (Builder.splitSlash p), ?_, hfiles⟩
      have h1 : Builder.insertStep [] p c1 =
          some (Builder.chainOf "" c1 (Builder.splitSlash p)) := by
        unfold Builder.insertStep
        rw [if_neg (by push_neg; exact ⟨hp, hc1⟩)]
        exact Builder.insertSegs_empty "" c1 _ hsegs
      have h2 : Builder.insertStep (Builder.chainOf "" c1 (Builder.splitSlash p)) p c2 =
          some (Builder.chainOf "" c2 (Builder.splitSlash p)) := by
        unfold Builder.insertStep
        rw [if_neg (by push_neg; exact ⟨hp, hc2⟩)]
        exact Builder.insertSegs_chain "" c1 c2 _ hsegs
      simp only [Builder.processSteps]
      rw [h1]
      simp only [Builder.processSteps]
      rw [h2]
  · intro st1 st2 hpp hp hc1 hc2
    have hp2 : ¬ st2.path = "" := by rw [← hpp]; exact hp
    simp [Builder.convertStepsToFiles, Builder.msetF, hp, hp2, hc1, hc2, hpp]

/-- Witness for C5: the overwrite law applied at a concrete path and
contents, together with the uniqueness part at the resulting tree. -/
theorem C5_witness :
    (∃ t, Builder.processSteps [] [("src/App.tsx", "a"), ("src/App.tsx", "b")] = some t ∧
        Builder.filePathsList t = [("/" ++ "src/App.tsx", "b")]) ∧
    ((Builder.filePathsList
        [Builder.FItem.folder "src" "/src"
          [Builder.FItem.file "App.tsx" "/src/App.tsx" "b"]]).map Prod.fst).Nodup := by
  constructor
  · exact C5_amended_assembler.2.1 "src/App.tsx" "a" "b" (by decide) (by decide)
  · exact C5_amended_assembler.1 [("src/App.tsx", "a"), ("src/App.tsx", "b")] _ (by rfl)

namespace Preview

/-!
Embedding of the repair passes of `PreviewFrame.tsx`
(src/src/components/PreviewFrame.tsx).  The `Map<string, FlatFile>`
workspace is modelled as an insertion-ordered association list from
normalized path to content (in every pass the stored `FlatFile.path`
equals its key, so only the content is kept as the value).
-/

/-- The `Map<string, FlatFile>` workspace: key = normalized path,
value = file content. -/
abbrev FMap := List (String × String)

/-- `Map.prototype.get` (first entry wins; keys are unique by
construction). -/
def pget (m : FMap) (k : String) : Option String :=
  (m.find? (fun e => e.1 = k)).map (fun e => e.2)

/-- `Map.prototype.has`. -/
def phas (m : FMap) (k : String) : Bool :=
  m.any (fun e => e.1 = k)

/-- `Map.prototype.set`: an existing key keeps its position and gets
the new value, a new key is appended. -/
def pset (m : FMap) (k v : String) : FMap :=
  if m.any (fun e => e.1 = k) then m.map (fun e => if e.1 = k then (k, v) else e)
  else m ++ [(k, v)]

/-- `Map.prototype.delete`. -/
def pdel (m : FMap) (k : String) : FMap :=
  m.filter (fun e => ¬ e.1 = k)

/-- JS `Array.prototype.join` with a separator. -/
def jsJoin (sep : String) : List String → String
  | [] => ""
  | [s] => s
  | s :: rest => s ++ sep ++ jsJoin sep rest

/-- `content.split('\n')` (src/src/components/PreviewFrame.tsx,
line 1617). -/
def splitNlS (s : String) : List String :=
  (Builder.splitOnChar '\n' s.data).map String.mk

/-- The component-file extension test `/\.(tsx|jsx|ts|js)$/`
(src/src/components/PreviewFrame.tsx, line 1615). -/
def isComponentPath (p : String) : Bool :=
  endsWithS p ".tsx" ∨ endsWithS p ".jsx" ∨ endsWithS p ".ts" ∨ endsWithS p ".js"

/-- Suffix test on character lists. -/
def endsWithC (suf l : Chars) : Bool := litStarts suf.reverse l.reverse

/-- JS line terminators, which `.` (without the `s` flag) never
matches: `\n`, `\r`, U+2028, U+2029. -/
def isLineTerm (c : Char) : Bool :=
  c = '\n' ∨ c = '\r' ∨ c = Char.ofNat 0x2028 ∨ c = Char.ofNat 0x2029

/-- Greedy `(.+\.css)` followed by a closing quote: the capture is the
longest prefix of length `k` that ends in `.css`, has at least one
character before that extension (the `+` of `.+`), contains no line
terminator (`.` excludes them), and is followed by a quote (JS greedy
backtracking).  `k` counts candidate closing-quote indices
downwards. -/
def greedyCssGo (l3 : Chars) : Nat → Option Chars
  | 0 => none
  | Nat.succ km1 =>
    let k := km1 + 1
    if (l3.get? k = some sqC ∨ l3.get? k = some dq) ∧ endsWithC ".css".data (l3.take k) ∧
        5 ≤ k ∧ (l3.take k).all (fun c => ¬ isLineTerm c) then
      some (l3.take k)
    else greedyCssGo l3 km1

/-- Matcher for `import\s+['"](.+\.css)['"]` at one position
(src/src/components/PreviewFrame.tsx, line 1621). -/
def cssLineMatch (l : Chars) : Option Chars :=
  if litStarts "import".data l then
    match takeRun1 isJsWs (l.drop 6) with
    | none => none
    | some (_, l2) =>
      match l2 with
      | q :: l3 =>
        if q = sqC ∨ q = dq then greedyCssGo l3 (l3.length - 1) else none
      | [] => none
  else none

/-- First `import\s+['"](.+\.css)['"]` capture of a line (JS
`line.match(...)`), as a string. -/
def cssImportOf (line : String) : Option String :=
  (findFirst cssLineMatch line.data).map String.mk

/-- Path resolution of a stylesheet import relative to the importing
file (src/src/components/PreviewFrame.tsx, lines 1624-1635): drop the
file name, then `..` pops, `.` is skipped, anything else is pushed;
re-join with `/`. -/
def resolveCss (filePath cssPath : String) : String :=
  Builder.joinSlash
    ((Builder.splitSlash cssPath).foldl
      (fun acc seg =>
        if seg = ".." then acc.dropLast
        else if seg = "." then acc
        else acc ++ [seg])
      (Builder.splitSlash filePath).dropLast)

/-- The `lines.filter` predicate (src/src/components/PreviewFrame.tsx,
lines 1620-1642): keep a line unless it is a stylesheet import whose
resolved path is not in the map. -/
def keepCssLine (m : FMap) (filePath : String) (line : String) : Bool :=
  match cssImportOf line with
  | none => true
  | some css => phas m (resolveCss filePath css)

/-- `fixBrokenCssImports` (src/src/components/PreviewFrame.tsx, lines
1613-1648): for every component-like file, drop the stylesheet-import
lines whose resolved path is absent; the `changed` flag only avoids a
no-op reassignment.  Keys are never changed, so the pass is a map over
the entries. -/
def fixBrokenCssImports (m : FMap) : FMap :=
  m.map (fun e =>
    if isComponentPath e.1 then
      (e.1, jsJoin "\n" ((splitNlS e.2).filter (keepCssLine m e.1)))
    else e)

end Preview

namespace Preview

theorem pget_fixBroken (f content : String) : ∀ m : FMap, pget m f = some content →
    pget (fixBrokenCssImports m) f =
      some (if isComponentPath f then
          jsJoin "\n" ((splitNlS content).filter (keepCssLine m f))
        else content) := by
  have hmap : ∀ (m m0 : FMap), pget m f = some content →
      pget (m.map (fun e =>
        if isComponentPath e.1 then
          (e.1, jsJoin "\n" ((splitNlS e.2).filter (keepCssLine m0 e.1)))
        else e)) f =
      some (if isComponentPath f then
          jsJoin "\n" ((splitNlS content).filter (keepCssLine m0 f))
        else content) := by
    intro m m0 h
    induction m with
    | nil => simp [pget] at h
    | cons e es ih =>
      obtain ⟨k, v⟩ := e
      by_cases he : k = f
      · subst he
        have h2 : v = content := by
          unfold pget at h
          rw [List.find?_cons_of_pos _ (by simp)] at h
          simpa using h
        subst h2
        unfold pget
        rw [List.map_cons]
        by_cases hc : isComponentPath k = true
        · rw [if_pos hc, if_pos hc]
          rw [List.find?_cons_of_pos _ (by simp)]
          rfl
        · rw [if_neg hc, if_neg hc]
          rw [List.find?_cons_of_pos _ (by simp)]
          rfl
      · unfold pget at h ⊢
        rw [List.find?_cons_of_neg _ (by simp [he])] at h
        rw [List.map_cons]
        by_cases hc : isComponentPath k = true
        · rw [if_pos hc, List.find?_cons_of_neg _ (by simp [he])]
          exact ih h
        · rw [if_neg hc, List.find?_cons_of_neg _ (by simp [he])]
          exact ih h
  intro m h
  exact hmap m m h

end Preview

/-- C7.  After the dangling-stylesheet pass, a component-like file's
content is its original lines filtered: a line is deleted exactly when
it is a stylesheet import (per the pass's own matcher) whose path,
resolved against the importing file's directory, names no file in the
set; kept lines (including imports of present stylesheets) are
preserved verbatim and in order, and non-component files are
untouched. -/
theorem C7_stylesheet_repair :
    (∀ (m : Preview.FMap) (f content : String),
        Preview.pget m f = some content → Preview.isComponentPath f = true →
        Preview.pget (Preview.fixBrokenCssImports m) f =
          some (Preview.jsJoin "\n"
            ((Preview.splitNlS content).filter (Preview.keepCssLine m f)))) ∧
    (∀ (m : Preview.FMap) (f line : String),
        Preview.keepCssLine m f line = false ↔
          ∃ css, Preview.cssImportOf line = some css ∧
            Preview.phas m (Preview.resolveCss f css) = false) ∧
    (∀ (m : Preview.FMap) (f content : String),
        ((Preview.splitNlS content).filter (Preview.keepCssLine m f)).Sublist
          (Preview.splitNlS content)) ∧
    (∀ (m : Preview.FMap) (f content : String),
        Preview.pget m f = some content → Preview.isComponentPath f = false →
        Preview.pget (Preview.fixBrokenCssImports m) f = some content) := by
  refine ⟨?_, ?_, ?_, ?_⟩
  · intro m f content h hc
    rw [Preview.pget_fixBroken f content m h, if_pos hc]
  · intro m f line
    unfold Preview.keepCssLine
    cases hcss : Preview.cssImportOf line with
    | none => simp
    | some css =>
      constructor
      · intro h
        exact ⟨css, rfl, h⟩
      · intro ⟨css2, hc2, hp2⟩
        cases hc2
        exact hp2
  · intro m f content
    exact List.filter_sublist _
  · intro m f content h hc
    rw [Preview.pget_fixBroken f content m h, if_neg (by simp [hc])]

/-- Concrete file set for the C7 witness: one present stylesheet, one
dangling import. -/
def m7 : Preview.FMap :=
  [("src/App.tsx",
    "import \x27./App.css\x27;\nimport \x27./gone.css\x27;\nbody"),
   ("src/App.css", "h1 (x)")]

/-- Witness for C7 at a concrete file set: the dangling import is
removed, the present import and the code line survive verbatim, the
stylesheet file itself is untouched. -/
theorem C7_witness :
    Preview.pget (Preview.fixBrokenCssImports m7) "src/App.tsx" =
      some ("import \x27./App.css\x27;\nbody") ∧
    Preview.pget (Preview.fixBrokenCssImports m7) "src/App.css" = some "h1 (x)" := by
  constructor
  · have h := C7_stylesheet_repair.1 m7 "src/App.tsx"
      ("import \x27./App.css\x27;\nimport \x27./gone.css\x27;\nbody")
      (by rfl) (by decide)
    rw [h]
    decide
  · exact C7_stylesheet_repair.2.2.2 m7 "src/App.css" "h1 (x)" (by rfl) (by decide)

namespace Preview

/-- Fixed prefix of the interactive component template
(src/src/components/PreviewFrame.tsx, lines 1748-1766, up to the
interpolated title); it contains the interactive-conversion
placeholder comment. -/
def tplA1 : String := "import \x7b useEffect, useState \x7d from \x27react\x27;\nimport \x27./App.css\x27;\n\nexport default function App() \x7b\n  const [data, setData] = useState<any[]>([]);\n  const [loading, setLoading] = useState(true);\n\n  useEffect(() => \x7b\n    // Initialize app\n    setLoading(false);\n    \n    // Note: Original JavaScript code needs manual conversion to React\n    // The vanilla JS used DOM manipulation which doesn\x27t work in React\n    // Please convert event listeners and DOM queries to React patterns\n  \x7d, []);\n\n  return (\n    <div className=\x22app-container\x22>\n      <h1>"

/-- Middle of the interactive template, between the title and the
injected markup. -/
def tplA2 : String := "</h1>\n      <div dangerouslySetInnerHTML=\x7b\x7b __html: \x60"

/-- Tail of the interactive template. -/
def tplA3 : String := "\x60 \x7d\x7d />\n      \x7bloading && <p>Loading...</p>\x7d\n    </div>\n  );\n\x7d\n"

/-- Prefix of the static component template (lines 1776-1782). -/
def tplB1 : String := "import \x27./App.css\x27;\n\nexport default function App() \x7b\n  return (\n    <div className=\x22app-container\x22>\n      <div dangerouslySetInnerHTML=\x7b\x7b __html: \x60"

/-- Tail of the static component template. -/
def tplB2 : String := "\x60 \x7d\x7d />\n    </div>\n  );\n\x7d\n"

/-- Base styles inserted when the CSS has no body rule
(lines 1795-1810). -/
def cssBase : String := "* \x7b\n  box-sizing: border-box;\n  margin: 0;\n  padding: 0;\n\x7d\n\nbody \x7b\n  font-family: -apple-system, BlinkMacSystemFont, \x27Segoe UI\x27, \x27Roboto\x27, \x27Oxygen\x27,\n    \x27Ubuntu\x27, \x27Cantarell\x27, \x27Fira Sans\x27, \x27Droid Sans\x27, \x27Helvetica Neue\x27,\n    sans-serif;\n  -webkit-font-smoothing: antialiased;\n  -moz-osx-font-smoothing: grayscale;\n  min-height: 100vh;\n\x7d\n\n"

/-- Fixed middle of the generated stylesheet (lines 1812-1819). -/
def cssMid1 : String := "\n.app-container \x7b\n  width: 100%;\n  min-height: 100vh;\n\x7d\n\n/* Original styles */\n"

/-- Tail of the generated stylesheet. -/
def cssMid2 : String := "\n"

end Preview

namespace Preview

/-- Split at the last case-insensitive occurrence of `pat` (greedy
`[\s\S]*` before a literal; the patterns used here cannot overlap
themselves). -/
def ciSplitLast (pat : Chars) : Chars → Option (Chars × Chars)
  | [] => if ciStarts pat [] then some ([], []) else none
  | c :: cs =>
    match ciSplitLast pat cs with
    | some (a, b) => some (c :: a, b)
    | none =>
      if ciStarts pat (c :: cs) then some ([], (c :: cs).drop pat.length) else none

/-- Matcher for `<body[^>]*>([\s\S]*)<\/body>` with flag `i` at one
position (src/src/components/PreviewFrame.tsx, line 1690): the greedy
body runs to the last closing tag. -/
def bodyMatchAt (l : Chars) : Option Chars :=
  if ciStarts "<body".data l then
    match (l.drop 5).dropWhile (fun c => ¬ c = '>') with
    | '>' :: l2 => (ciSplitLast "</body>".data l2).map (fun p => p.1)
    | _ => none
  else none

/-- `htmlContent.match(/<body[^>]*>([\s\S]*)<\/body>/i)` capture. -/
def bodyContentOf (html : String) : Option String :=
  (findFirst bodyMatchAt html.data).map String.mk

/-- Matcher for `<title>([^<]+)<\/title>` with flag `i`
(src/src/components/PreviewFrame.tsx, line 1694). -/
def titleMatchAt (l : Chars) : Option Chars :=
  if ciStarts "<title>".data l then
    match takeRun1 (fun c => ¬ c = '<') (l.drop 7) with
    | some (grp, rest) => if ciStarts "</title>".data rest then some grp else none
    | none => none
  else none

/-- Page title capture. -/
def titleOf (html : String) : Option String :=
  (findFirst titleMatchAt html.data).map String.mk

/-- One match of `<script[^>]*>[\s\S]*?<\/script>` with flags `gi`
(src/src/components/PreviewFrame.tsx, line 1698). -/
def scriptTagMatch (l : Chars) : Option (Chars × Nat) :=
  if ciStarts "<script".data l then
    let attrs := (l.drop 7).takeWhile (fun c => ¬ c = '>')
    match (l.drop 7).dropWhile (fun c => ¬ c = '>') with
    | '>' :: l2 =>
      match ciSplitFirst "</script>".data l2 with
      | some (body, _) => some ([], 7 + attrs.length + 1 + body.length + 9)
      | none => none
    | _ => none
  else none

/-- Delete all script tags from the body markup. -/
def stripScriptTags (s : String) : String :=
  String.mk (replaceScan scriptTagMatch s.data)

/-- Literal global replace (e.g. `class=` → `className=`). -/
def replaceLit (pat rep : Chars) (s : Chars) : Chars :=
  replaceScan (fun l => if litStarts pat l then some (rep, pat.length) else none) s

/-- One match of the comment stripper `<!--[\s\S]*?-->` (line 1741). -/
def commentMatch (l : Chars) : Option (Chars × Nat) :=
  if litStarts "<!--".data l then
    match splitFirst "-->".data (l.drop 4) with
    | some (body, _) => some ([], 4 + body.length + 3)
    | none => none
  else none

/-- The JSX-friendly markup conversion (src/src/components/
PreviewFrame.tsx, lines 1738-1742): `class=` → `className=`,
`for=` → `htmlFor=`, comments removed, trimmed. -/
def jsxContentOf (htmlContent : String) : String :=
  String.mk (trimChars (replaceScan commentMatch
    (replaceLit "for=".data "htmlFor=".data
      (replaceLit "class=".data "className=".data htmlContent.data))))

/-- The interactivity test
`/addEventListener|getElementById|querySelector|fetch|innerHTML/`
(src/src/components/PreviewFrame.tsx, line 1745). -/
def needsStateTest (js : String) : Bool :=
  occursIn "addEventListener".data js.data ∨ occursIn "getElementById".data js.data ∨
  occursIn "querySelector".data js.data ∨ occursIn "fetch".data js.data ∨
  occursIn "innerHTML".data js.data

/-- Escape backticks in the injected markup
(`jsxContent.replace(/`/g, '\\`')`). -/
def escapeBackticks (s : String) : String :=
  String.mk (replaceLit [bt] ['\\', bt] s.data)

/-- `generateReactComponent` (src/src/components/PreviewFrame.tsx,
lines 1736-1786). -/
def generateReactComponent (htmlContent jsContent title : String) : String :=
  let jsx := jsxContentOf htmlContent
  if needsStateTest jsContent then
    tplA1 ++ title ++ tplA2 ++ escapeBackticks jsx ++ tplA3
  else
    tplB1 ++ escapeBackticks jsx ++ tplB2

/-- The `body` rule test `/body\s*\{/` (src/src/components/
PreviewFrame.tsx, line 1793). -/
def hasBodyRule (css : String) : Bool :=
  (findFirst (fun l =>
    if litStarts "body".data l then
      match (l.drop 4).dropWhile isJsWs with
      | '{' :: _ => some ()
      | _ => none
    else none) css.data).isSome

/-- `generateReactCSS` (src/src/components/PreviewFrame.tsx, lines
1791-1820). -/
def generateReactCSS (originalCSS : String) : String :=
  (if hasBodyRule originalCSS then "" else cssBase) ++ cssMid1 ++ originalCSS ++ cssMid2

/-- `includes` substring test. -/
def includesS (s pat : String) : Bool := occursIn pat.data s.data

/-- The script-file filter of `convertVanillaToReact`
(src/src/components/PreviewFrame.tsx, lines 1665-1667). -/
def jsEntries (m : FMap) : FMap :=
  m.filter (fun e => endsWithS e.1 ".js" ∧ ¬ includesS e.1 "node_modules" ∧
    ¬ includesS e.1 "vite.config")

/-- The stylesheet filter (lines 1668-1670). -/
def cssEntries (m : FMap) : FMap :=
  m.filter (fun e => endsWithS e.1 ".css" ∧ ¬ includesS e.1 "node_modules" ∧
    ¬ includesS e.1 "index.css")

/-- Combined script content (line 1704). -/
def combinedJS (m : FMap) : String := jsJoin "\n\n" ((jsEntries m).map (fun e => e.2))

/-- Combined stylesheet content (line 1701). -/
def combinedCSS (m : FMap) : String := jsJoin "\n\n" ((cssEntries m).map (fun e => e.2))

/-- Delete a list of keys in order. -/
def delAll (m : FMap) (keys : List String) : FMap := keys.foldl pdel m

/-- `convertVanillaToReact` (src/src/components/PreviewFrame.tsx,
lines 1654-1731): skipped when a root component exists or no HTML
entry is found; otherwise synthesizes `src/App.tsx` and `src/App.css`
from the extracted body markup, scripts and styles, then deletes the
original markup, script and style files. -/
def convertVanillaToReact (m : FMap) : Bool × FMap :=
  if phas m "src/App.tsx" ∨ phas m "src/App.jsx" then (false, m)
  else
    match (pget m "index.html").orElse (fun _ => (pget m "src/index.html").orElse
        (fun _ => pget m "portfolio/index.html")) with
    | none => (false, m)
    | some htmlContent =>
      let bodyContent := (bodyContentOf htmlContent).getD htmlContent
      let pageTitle := (titleOf htmlContent).getD "Generated App"
      let cleanBodyContent := stripScriptTags bodyContent
      let reactApp := generateReactComponent cleanBodyContent (combinedJS m) pageTitle
      let reactCSS := generateReactCSS (combinedCSS m)
      let m2 := pset (pset m "src/App.tsx" reactApp) "src/App.css" reactCSS
      let m3 := pdel (pdel m2 "index.html") "src/index.html"
      let m4 := delAll m3 ((jsEntries m).map (fun e => e.1))
      let m5 := delAll m4 ((cssEntries m).map (fun e => e.1))
      (true, m5)

end Preview

theorem litStarts_append_left (pat : Chars) : ∀ (a b : Chars),
    litStarts pat a = true → litStarts pat (a ++ b) = true := by
  intro a
  induction pat generalizing a with
  | nil => intro b _; rfl
  | cons p ps ih =>
    intro b h
    cases a with
    | nil => simp [litStarts] at h
    | cons c cs =>
      simp only [litStarts, Bool.and_eq_true, decide_eq_true_eq] at h ⊢
      exact ⟨h.1, ih cs b h.2⟩

theorem occursIn_append_left (pat : Chars) : ∀ (a b : Chars),
    occursIn pat a = true → occursIn pat (a ++ b) = true := by
  intro a
  induction a with
  | nil =>
    intro b h
    rw [occursIn] at h
    cases pat with
    | nil => cases b <;> simp [occursIn, litStarts]
    | cons p ps => simp [litStarts] at h
  | cons c cs ih =>
    intro b h
    rw [occursIn] at h
    rw [List.cons_append, occursIn]
    rcases Bool.or_eq_true_iff.mp (by simpa using h) with h1 | h2
    · have := litStarts_append_left pat (c :: cs) b h1
      rw [List.cons_append] at this
      simp [this]
    · simp [ih b h2]

namespace Preview

theorem pget_pdel (k k2 : String) : ∀ m : FMap,
    pget (pdel m k2) k = if k = k2 then none else pget m k := by
  intro m
  induction m with
  | nil => simp [pdel, pget]
  | cons e es ih =>
    by_cases he2 : e.1 = k2
    · have hdel : pdel (e :: es) k2 = pdel es k2 := by
        simp [pdel, List.filter_cons, he2]
      rw [hdel, ih]
      by_cases hk : k = k2
      · simp [hk]
      · rw [if_neg hk, if_neg hk]
        unfold pget
        rw [List.find?_cons_of_neg _ (by simp; rw [he2]; exact fun h => hk h.symm)]
    · have hdel : pdel (e :: es) k2 = e :: pdel es k2 := by
        simp [pdel, List.filter_cons, he2]
      rw [hdel]
      by_cases hek : e.1 = k
      · unfold pget
        rw [List.find?_cons_of_pos _ (by simp [hek]), List.find?_cons_of_pos _ (by simp [hek])]
        have hk : ¬ k = k2 := fun h => he2 (hek.trans h)
        simp [hk]
      · unfold pget
        rw [List.find?_cons_of_neg _ (by simp [hek]), List.find?_cons_of_neg _ (by simp [hek])]
        exact ih

theorem pget_pset_self (k v : String) : ∀ m : FMap, pget (pset m k v) k = some v := by
  intro m
  unfold pset
  by_cases hany : (m.any fun e => e.1 = k) = true
  · rw [if_pos hany]
    induction m with
    | nil => simp at hany
    | cons e es ih =>
      rw [List.map_cons]
      by_cases hek : e.1 = k
      · unfold pget
        rw [if_pos hek, List.find?_cons_of_pos _ (by simp)]
        rfl
      · unfold pget
        rw [if_neg hek, List.find?_cons_of_neg _ (by simp [hek])]
        exact ih (by simpa [List.any_cons, hek] using hany)
  · rw [if_neg hany]
    unfold pget
    rw [List.find?_append]
    rw [List.find?_eq_none.mpr (fun x hx => by
      simp only [decide_eq_true_eq]
      exact fun hxk => hany (List.any_eq_true.mpr ⟨x, hx, by simp [hxk]⟩))]
    simp

theorem pget_pset_other (k k2 v : String) (hk : k ≠ k2) : ∀ m : FMap,
    pget (pset m k2 v) k = pget m k := by
  intro m
  unfold pset
  by_cases hany : (m.any fun e => e.1 = k2) = true
  · rw [if_pos hany]
    clear hany
    induction m with
    | nil => rfl
    | cons e es ih =>
      rw [List.map_cons]
      by_cases he2 : e.1 = k2
      · unfold pget
        rw [if_pos he2, List.find?_cons_of_neg _ (by simpa using fun h => hk h.symm),
          List.find?_cons_of_neg _ (by simp [he2]; exact fun h => hk h.symm)]
        exact ih
      · by_cases hek : e.1 = k
        · unfold pget
          rw [if_neg he2, List.find?_cons_of_pos _ (by simp [hek]),
            List.find?_cons_of_pos _ (by simp [hek])]
        · unfold pget
          rw [if_neg he2, List.find?_cons_of_neg _ (by simp [hek]),
            List.find?_cons_of_neg _ (by simp [hek])]
          exact ih
  · rw [if_neg hany]
    clear hany
    induction m with
    | nil =>
      unfold pget
      rw [List.nil_append, List.find?_cons_of_neg _ (by simpa using fun h => hk h.symm)]
    | cons e es ih =>
      unfold pget
      rw [List.cons_append]
      by_cases hek : e.1 = k
      · rw [List.find?_cons_of_pos _ (by simp [hek]), List.find?_cons_of_pos _ (by simp [hek])]
      · rw [List.find?_cons_of_neg _ (by simp [hek]), List.find?_cons_of_neg _ (by simp [hek])]
        exact ih

theorem pget_delAll_none (k : String) : ∀ (keys : List String) (m : FMap),
    pget m k = none → pget (delAll m keys) k = none := by
  intro keys
  induction keys with
  | nil => intro m h; exact h
  | cons a rest ih =>
    intro m h
    unfold delAll at ih ⊢
    rw [List.foldl_cons]
    apply ih
    rw [pget_pdel]
    by_cases hk : k = a
    · simp [hk]
    · simp [hk, h]

theorem pget_delAll_mem (k : String) : ∀ (keys : List String) (m : FMap),
    k ∈ keys → pget (delAll m keys) k = none := by
  intro keys
  induction keys with
  | nil => intro m h; simp at h
  | cons a rest ih =>
    intro m h
    unfold delAll at ih ⊢
    rw [List.foldl_cons]
    rcases List.mem_cons.mp h with rfl | h2
    · apply pget_delAll_none
      rw [pget_pdel]
      simp
    · exact ih (pdel m a) h2

theorem pget_delAll_not_mem (k : String) : ∀ (keys : List String) (m : FMap),
    k ∉ keys → pget (delAll m keys) k = pget m k := by
  intro keys
  induction keys with
  | nil => intro m _; rfl
  | cons a rest ih =>
    intro m h
    unfold delAll at ih ⊢
    rw [List.foldl_cons]
    rw [ih (pdel m a) (fun hh => h (by simp [hh]))]
    rw [pget_pdel, if_neg (fun hh => h (by simp [hh]))]

end Preview

set_option maxRecDepth 100000 in
/-- C9: For every file set with no root component (`src/App.tsx` /
`src/App.jsx` absent) that holds an `index.html`, where the combined
script content references an interactive DOM API, the vanilla-to-React
conversion reports success, stores in `src/App.tsx` exactly the
component generated from the stripped body markup, the combined
scripts and the page title; that component contains the
interactive-conversion placeholder comment; and the original
`index.html` together with every subsumed script and stylesheet file
is absent from the resulting file set. -/
theorem C9_vanilla_conversion (m : Preview.FMap) (html : String)
    (h1 : Preview.phas m "src/App.tsx" = false)
    (h2 : Preview.phas m "src/App.jsx" = false)
    (h3 : Preview.pget m "index.html" = some html)
    (h4 : Preview.needsStateTest (Preview.combinedJS m) = true) :
    (Preview.convertVanillaToReact m).1 = true ∧
    Preview.pget (Preview.convertVanillaToReact m).2 "src/App.tsx" =
      some (Preview.generateReactComponent
        (Preview.stripScriptTags ((Preview.bodyContentOf html).getD html))
        (Preview.combinedJS m) ((Preview.titleOf html).getD "Generated App")) ∧
    Preview.includesS (Preview.generateReactComponent
        (Preview.stripScriptTags ((Preview.bodyContentOf html).getD html))
        (Preview.combinedJS m) ((Preview.titleOf html).getD "Generated App"))
      "// Note: Original JavaScript code needs manual conversion to React" = true ∧
    Preview.pget (Preview.convertVanillaToReact m).2 "index.html" = none ∧
    (∀ p ∈ (Preview.jsEntries m).map (fun e => e.1),
        Preview.pget (Preview.convertVanillaToReact m).2 p = none) ∧
    (∀ p ∈ (Preview.cssEntries m).map (fun e => e.1),
        Preview.pget (Preview.convertVanillaToReact m).2 p = none) := by
  have hnotJs : ∀ q : String, endsWithS q ".js" = false →
      q ∉ (Preview.jsEntries m).map (fun e => e.1) := by
    intro q hq hmem
    obtain ⟨e, he, heq⟩ := List.mem_map.mp hmem
    have hp := (List.mem_filter.mp he).2
    rw [heq] at hp
    simp only [decide_eq_true_eq] at hp
    rw [hq] at hp
    exact Bool.false_ne_true hp.1
  have hnotCss : ∀ q : String, endsWithS q ".css" = false →
      q ∉ (Preview.cssEntries m).map (fun e => e.1) := by
    intro q hq hmem
    obtain ⟨e, he, heq⟩ := List.mem_map.mp hmem
    have hp := (List.mem_filter.mp he).2
    rw [heq] at hp
    simp only [decide_eq_true_eq] at hp
    rw [hq] at hp
    exact Bool.false_ne_true hp.1
  have hcvr : Preview.convertVanillaToReact m =
      (true,
        Preview.delAll
          (Preview.delAll
            (Preview.pdel
              (Preview.pdel
                (Preview.pset
                  (Preview.pset m "src/App.tsx" (Preview.generateReactComponent
                    (Preview.stripScriptTags ((Preview.bodyContentOf html).getD html))
                    (Preview.combinedJS m) ((Preview.titleOf html).getD "Generated App")))
                  "src/App.css" (Preview.generateReactCSS (Preview.combinedCSS m)))
                "index.html") "src/index.html")
            ((Preview.jsEntries m).map (fun e => e.1)))
          ((Preview.cssEntries m).map (fun e => e.1))) := by
    unfold Preview.convertVanillaToReact
    rw [if_neg (by rw [h1, h2]; simp)]
    rw [h3]
    rfl
  refine ⟨by rw [hcvr], ?_, ?_, ?_, ?_, ?_⟩
  · rw [hcvr]
    rw [Preview.pget_delAll_not_mem _ _ _ (hnotCss _ (by decide))]
    rw [Preview.pget_delAll_not_mem _ _ _ (hnotJs _ (by decide))]
    rw [Preview.pget_pdel, if_neg (by decide)]
    rw [Preview.pget_pdel, if_neg (by decide)]
    rw [Preview.pget_pset_other _ _ _ (by decide)]
    rw [Preview.pget_pset_self]
  · unfold Preview.generateReactComponent Preview.includesS
    rw [if_pos h4]
    simp only [String.data_append]
    apply occursIn_append_left
    apply occursIn_append_left
    apply occursIn_append_left
    apply occursIn_append_left
    decide
  · rw [hcvr]
    apply Preview.pget_delAll_none
    apply Preview.pget_delAll_none
    rw [Preview.pget_pdel, if_neg (by decide)]
    rw [Preview.pget_pdel, if_pos rfl]
  · intro p hp
    rw [hcvr]
    apply Preview.pget_delAll_none
    exact Preview.pget_delAll_mem p _ _ hp
  · intro p hp
    rw [hcvr]
    exact Preview.pget_delAll_mem p _ _ hp

/-- The scenario-C markup: a page with a title, body markup and a
script tag. -/
def html9 : String :=
  "<html><head><title>Demo</title></head><body>\n<h1>Hi</h1>\n<script src=\x22app.js\x22></script>\n</body></html>"

/-- The scenario-C file set: `index.html`, a script referencing
`document.getElementById`, and a stylesheet; no root component. -/
def m9 : Preview.FMap :=
  [("index.html", html9),
   ("app.js", "document.getElementById(\x22root\x22).innerHTML = \x22ok\x22;"),
   ("styles.css", "h1 \x7b color: red; \x7d")]

theorem occursIn_append_right (pat : Chars) : ∀ (a b : Chars),
    occursIn pat b = true → occursIn pat (a ++ b) = true := by
  intro a
  induction a with
  | nil => intro b h; exact h
  | cons c cs ih =>
    intro b h
    rw [List.cons_append, occursIn]
    simp [ih b h]

set_option maxRecDepth 100000 in
theorem C9_witness :
    (Preview.phas m9 "src/App.tsx" = false ∧ Preview.phas m9 "src/App.jsx" = false ∧
     Preview.pget m9 "index.html" = some html9 ∧
     Preview.needsStateTest (Preview.combinedJS m9) = true) ∧
    (Preview.convertVanillaToReact m9).1 = true ∧
    Preview.pget (Preview.convertVanillaToReact m9).2 "src/App.tsx" =
      some (Preview.generateReactComponent
        (Preview.stripScriptTags ((Preview.bodyContentOf html9).getD html9))
        (Preview.combinedJS m9) ((Preview.titleOf html9).getD "Generated App")) ∧
    Preview.includesS (Preview.generateReactComponent
        (Preview.stripScriptTags ((Preview.bodyContentOf html9).getD html9))
        (Preview.combinedJS m9) ((Preview.titleOf html9).getD "Generated App"))
      "// Note: Original JavaScript code needs manual conversion to React" = true ∧
    Preview.includesS (Preview.generateReactComponent
        (Preview.stripScriptTags ((Preview.bodyContentOf html9).getD html9))
        (Preview.combinedJS m9) ((Preview.titleOf html9).getD "Generated App"))
      "<h1>Hi</h1>" = true ∧
    Preview.pget (Preview.convertVanillaToReact m9).2 "index.html" = none ∧
    Preview.pget (Preview.convertVanillaToReact m9).2 "app.js" = none ∧
    Preview.pget (Preview.convertVanillaToReact m9).2 "styles.css" = none := by
  have h := C9_vanilla_conversion m9 html9 (by decide) (by decide) rfl (by decide)
  refine ⟨⟨rfl, rfl, rfl, by decide⟩, h.1, h.2.1, h.2.2.1, ?_, h.2.2.2.1,
    h.2.2.2.2.1 "app.js" (by decide), h.2.2.2.2.2 "styles.css" (by decide)⟩
  unfold Preview.generateReactComponent Preview.includesS
  rw [if_pos (by decide)]
  simp only [String.data_append]
  apply occursIn_append_left
  apply occursIn_append_right
  decide

namespace Bundle

mutual

/-- One item of the `flattenFiles` walk (src/unnamed/part_006, lines
232-243): a folder recurses with the extended parent path, a file
contributes `item.path` when non-empty (JS `item.path || path`), else
the walked path, and its content. -/
def flattenItem (parentPath : String) : Builder.FItem → List (String × String)
  | Builder.FItem.file name p c =>
    [(if p = "" then (if parentPath = "" then name else parentPath ++ "/" ++ name) else p, c)]
  | Builder.FItem.folder name _ ch =>
    flattenFiles (if parentPath = "" then name else parentPath ++ "/" ++ name) ch

/-- `flattenFiles` (src/unnamed/part_006, lines 229-246). -/
def flattenFiles (parentPath : String) : List Builder.FItem → List (String × String)
  | [] => []
  | x :: xs => flattenItem parentPath x ++ flattenFiles parentPath xs

end

/-- `f.path.endsWith('.css')` (line 104). -/
def isCss (p : String) : Bool := endsWithS p ".css"

/-- `/\.(tsx?|jsx?)$/.test(f.path)` (line 105). -/
def isCode (p : String) : Bool :=
  endsWithS p ".ts" ∨ endsWithS p ".tsx" ∨ endsWithS p ".js" ∨ endsWithS p ".jsx"

/-- `/\/App\.(tsx|jsx|ts|js)$/.test(f.path) || f.path === 'App.tsx' ||
f.path === 'App.jsx'` (line 111). -/
def isAppPath (p : String) : Bool :=
  endsWithS p "/App.tsx" ∨ endsWithS p "/App.jsx" ∨ endsWithS p "/App.ts" ∨
  endsWithS p "/App.js" ∨ p = "App.tsx" ∨ p = "App.jsx"

/-- `/main\.(tsx|jsx|ts|js)$/.test(f.path)` (line 112); the regex has
no separator anchor, so any path whose name merely ends in `main.tsx`
etc. also tests true. -/
def isMainPath (p : String) : Bool :=
  endsWithS p "main.tsx" ∨ endsWithS p "main.jsx" ∨ endsWithS p "main.ts" ∨
  endsWithS p "main.js"

/-- `codeFiles.filter(f => f !== appFile && f !== mainFile)` (line
113): `find` returns the first matching array element, and `!==` is
reference inequality, so exactly the first App match and the first
main match (by position) are removed. -/
def componentFiles (codeFiles : List (String × String)) : List (String × String) :=
  let aIdx := codeFiles.findIdx? (fun f => isAppPath f.1)
  let mIdx := codeFiles.findIdx? (fun f => isMainPath f.1)
  codeFiles.enum.filterMap (fun e =>
    if some e.1 = aIdx ∨ some e.1 = mIdx then none else some e.2)

/-- `[...componentFiles, appFile].filter(Boolean)` (line 116). -/
def orderedFiles (codeFiles : List (String × String)) : List (String × String) :=
  componentFiles codeFiles ++ (codeFiles.find? (fun f => isAppPath f.1)).toList

/-- One match of `^import\s+.*$` with flags `gm` (line 123): at a line
start, `import` followed by at least one whitespace character (`\s`
crosses newlines), then the rest of the line. -/
def importLineMatch (ls : Bool) (l : Chars) : Option (Chars × Nat) :=
  if ls ∧ litStarts "import".data l then
    match takeRun1 isJsWs (l.drop 6) with
    | some (ws, rest) =>
      some ([], 6 + ws.length + (rest.takeWhile (fun c => ¬ c = '\n')).length)
    | none => none
  else none

/-- One match of `export\s+default\s+kw\s+` (lines 126-127) replaced
by `kw ++ " "`. -/
def edfMatch (kw : Chars) (rep : Chars) (l : Chars) : Option (Chars × Nat) :=
  if litStarts "export".data l then
    match takeRun1 isJsWs (l.drop 6) with
    | some (w1, r1) =>
      if litStarts "default".data r1 then
        match takeRun1 isJsWs (r1.drop 7) with
        | some (w2, r2) =>
          if litStarts kw r2 then
            match takeRun1 isJsWs (r2.drop kw.length) with
            | some (w3, _) =>
              some (rep, 6 + w1.length + 7 + w2.length + kw.length + w3.length)
            | none => none
          else none
        | none => none
      else none
    | none => none
  else none

/-- One match of `export\s+default\s+` (line 128), removed. -/
def edMatch (l : Chars) : Option (Chars × Nat) :=
  if litStarts "export".data l then
    match takeRun1 isJsWs (l.drop 6) with
    | some (w1, r1) =>
      if litStarts "default".data r1 then
        match takeRun1 isJsWs (r1.drop 7) with
        | some (w2, _) => some ([], 6 + w1.length + 7 + w2.length)
        | none => none
      else none
    | none => none
  else none

/-- Keyword followed by a whitespace character (the lookahead
`(?=(?:const|let|var|function|class|enum|interface|type)\s)` of line
130). -/
def wsHead : Chars → Bool
  | c :: _ => isJsWs c
  | [] => false

def kwWsAt (kw : String) (r : Chars) : Bool :=
  litStarts kw.data r ∧ wsHead (r.drop kw.data.length)

/-- One match of the named-export stripper
`^export\s+(?=(?:const|let|var|function|class|enum|interface|type)\s)`
with flags `gm` (line 130): consumes `export` and the whitespace, the
keyword is kept by the zero-width lookahead. -/
def namedExportMatch (ls : Bool) (l : Chars) : Option (Chars × Nat) :=
  if ls ∧ litStarts "export".data l then
    match takeRun1 isJsWs (l.drop 6) with
    | some (ws, r) =>
      if kwWsAt "const" r ∨ kwWsAt "let" r ∨ kwWsAt "var" r ∨ kwWsAt "function" r ∨
         kwWsAt "class" r ∨ kwWsAt "enum" r ∨ kwWsAt "interface" r ∨ kwWsAt "type" r
      then some ([], 6 + ws.length)
      else none
    | none => none
  else none

/-- The four source-stripping replaces of `buildPreview` (src/unnamed/
part_006, lines 120-130), applied in source order. -/
def stripCode (code : String) : String :=
  let c1 := String.mk (replaceScanLS importLineMatch true code.data)
  let c2 := String.mk (replaceScan (edfMatch "function".data "function ".data) c1.data)
  let c3 := String.mk (replaceScan (edfMatch "class".data "class ".data) c2.data)
  let c4 := String.mk (replaceScan edMatch c3.data)
  String.mk (replaceScanLS namedExportMatch true c4.data)

/-- Modelled from the spec: the `transform` call (lines 133-137) is the
`sucrase` npm package, which is not part of this repository; on code
that contains no JSX and no TypeScript syntax it returns its input, so
it is embedded as the identity. -/
def transformJS (code : String) : String := code

/-- Capture of `function\s+([A-Z]\w*)` (line 147, inner alternative). -/
def fnHead (r : Chars) : Option Chars :=
  if litStarts "function".data r then
    match takeRun1 isJsWs (r.drop 8) with
    | some (_, r2) =>
      match r2 with
      | c :: _ => if isUpperAZ c then some (r2.takeWhile isWordChar) else none
      | [] => none
    | none => none
  else none

/-- One position of `(?:export\s+default\s+)?function\s+([A-Z]\w*)`
(line 147): the greedy optional prefix is tried first. -/
def fnNameMatch (l : Chars) : Option Chars :=
  if litStarts "export".data l then
    match takeRun1 isJsWs (l.drop 6) with
    | some (_, r1) =>
      if litStarts "default".data r1 then
        match takeRun1 isJsWs (r1.drop 7) with
        | some (_, r2) =>
          match fnHead r2 with
          | some n => some n
          | none => fnHead l
        | none => fnHead l
      else fnHead l
    | none => fnHead l
  else fnHead l

/-- Capture of `(?:const|var|let)\s+([A-Z]\w*)` (line 151, inner
alternatives in source order). -/
def cvlHead (r : Chars) : Option Chars :=
  let after := fun (k : Nat) =>
    match takeRun1 isJsWs (r.drop k) with
    | some (_, r2) =>
      match r2 with
      | c :: _ => if isUpperAZ c then some (r2.takeWhile isWordChar) else none
      | [] => none
    | none => none
  if litStarts "const".data r then after 5
  else if litStarts "var".data r then after 3
  else if litStarts "let".data r then after 3
  else none

/-- One position of `(?:export\s+default\s+)?(?:const|var|let)\s+([A-Z]\w*)`
(line 151). -/
def cvlNameMatch (l : Chars) : Option Chars :=
  if litStarts "export".data l then
    match takeRun1 isJsWs (l.drop 6) with
    | some (_, r1) =>
      if litStarts "default".data r1 then
        match takeRun1 isJsWs (r1.drop 7) with
        | some (_, r2) =>
          match cvlHead r2 with
          | some n => some n
          | none => cvlHead l
        | none => cvlHead l
      else cvlHead l
    | none => cvlHead l
  else cvlHead l

/-- `appComponentName` detection (lines 145-154): defaults to `App`,
first `function` match wins, then `const`/`var`/`let`. -/
def appComponentName (appContent : Option String) : String :=
  match appContent with
  | none => "App"
  | some content =>
    match findFirst fnNameMatch content.data with
    | some n => String.mk n
    | none =>
      match findFirst cvlNameMatch content.data with
      | some n => String.mk n
      | none => "App"

/-- The escape pattern `</script` of line 157 (flags `gi`). -/
def escPat : Chars := "</script".data

/-- The escape replacement `<\/script` of line 157. -/
def escRep : Chars := "<\\/script".data

/-- One match of `/<\/script/gi` (line 157). -/
def escStep (l : Chars) : Option (Chars × Nat) :=
  if ciStarts escPat l then some (escRep, 8) else none

/-- `.replace(/<\/script/gi, '<\\/script')` (line 157). -/
def escapeScript (s : String) : String :=
  String.mk (replaceScan escStep s.data)

/-- The flattened file list of `buildPreview` (line 101). -/
def flatOf (items : List Builder.FItem) : List (String × String) := flattenFiles "" items

/-- `cssFiles` (line 104). -/
def cssFilesOf (items : List Builder.FItem) : List (String × String) :=
  (flatOf items).filter (fun f => isCss f.1)

/-- `codeFiles` (line 105). -/
def codeFilesOf (items : List Builder.FItem) : List (String × String) :=
  (flatOf items).filter (fun f => isCode f.1)

/-- `allCSS` (line 108). -/
def allCSSOf (items : List Builder.FItem) : String :=
  Preview.jsJoin "\n\n" ((cssFilesOf items).map (fun f => f.2))

/-- `transformedChunks` (lines 119-142). -/
def chunksOf (items : List Builder.FItem) : List String :=
  (orderedFiles (codeFilesOf items)).map (fun f => transformJS (stripCode f.2))

/-- `safeCode` (line 157). -/
def safeCodeOf (items : List Builder.FItem) : String :=
  escapeScript (Preview.jsJoin "\n\n" (chunksOf items))

/-- `appComponentName` as computed in `buildPreview` (lines 145-154). -/
def appNameOf (items : List Builder.FItem) : String :=
  appComponentName (((codeFilesOf items).find? (fun f => isAppPath f.1)).map (fun f => f.2))

def tplH1 : String := "<!DOCTYPE html>\n<html lang=\x22en\x22>\n<head>\n  <meta charset=\x22UTF-8\x22 />\n  <meta name=\x22viewport\x22 content=\x22width=device-width, initial-scale=1.0\x22 />\n  <title>Preview</title>\n  <style>\n* \x7b box-sizing: border-box; margin: 0; padding: 0; \x7d\nbody \x7b font-family: -apple-system, BlinkMacSystemFont, \x27Segoe UI\x27, Roboto, \x27Helvetica Neue\x27, Arial, sans-serif; -webkit-font-smoothing: antialiased; \x7d\n"

def tplH2 : String := "\n  </style>\n</head>\n<body>\n  <div id=\x22root\x22></div>\n  <script crossorigin src=\x22https://unpkg.com/react@18.3.1/umd/react.production.min.js\x22></script>\n  <script crossorigin src=\x22https://unpkg.com/react-dom@18.3.1/umd/react-dom.production.min.js\x22></script>\n  <script>\n  (function() \x7b\n    try \x7b\n      var _R = React;\n      var useState = _R.useState;\n      var useEffect = _R.useEffect;\n      var useRef = _R.useRef;\n      var useCallback = _R.useCallback;\n      var useMemo = _R.useMemo;\n      var useContext = _R.useContext;\n      var useReducer = _R.useReducer;\n      var useLayoutEffect = _R.useLayoutEffect;\n      var createContext = _R.createContext;\n      var Fragment = _R.Fragment;\n      var createElement = _R.createElement;\n      var forwardRef = _R.forwardRef;\n      var memo = _R.memo;\n      var lazy = _R.lazy;\n      var Suspense = _R.Suspense;\n      var Children = _R.Children;\n      var cloneElement = _R.cloneElement;\n      var isValidElement = _R.isValidElement;\n\n      "

def tplH3 : String := "\n\n      var _AppComponent = typeof "

def tplH4 : String := " !== \x27undefined\x27\n        ? "

def tplH5 : String := "\n        : function() \x7b return React.createElement(\x27div\x27, \x7bstyle:\x7bpadding:\x272rem\x27,fontFamily:\x27system-ui\x27\x7d\x7d, \x27App component not found\x27); \x7d;\n\n      ReactDOM.createRoot(document.getElementById(\x27root\x27)).render(\n        React.createElement(_AppComponent)\n      );\n    \x7d catch(e) \x7b\n      document.getElementById(\x27root\x27).innerHTML =\n        \x27<div style=\x22padding:24px;font-family:monospace\x22>\x27 +\n        \x27<h3 style=\x22color:#ef4444;margin-bottom:8px\x22>Preview Error</h3>\x27 +\n        \x27<pre style=\x22color:#f87171;white-space:pre-wrap;font-size:13px\x22>\x27 + e.message + \x27</pre>\x27 +\n        \x27<pre style=\x22color:#9ca3af;white-space:pre-wrap;font-size:11px;margin-top:8px\x22>\x27 + (e.stack || \x27\x27) + \x27</pre>\x27 +\n        \x27</div>\x27;\n      console.error(\x27Preview runtime error:\x27, e);\n    \x7d\n  \x7d)();\n  </script>\n</body>\n</html>"

/-- `buildPreview` (src/unnamed/part_006, lines 100-220): the returned
HTML document template with `allCSS`, `safeCode` and
`appComponentName` interpolated. -/
def buildPreview (items : List Builder.FItem) : String :=
  tplH1 ++ allCSSOf items ++ tplH2 ++ safeCodeOf items ++ tplH3 ++ appNameOf items ++
    tplH4 ++ appNameOf items ++ tplH5

end Bundle

theorem filterMap_enumFrom_sublist {α : Type} (q : Nat → Prop) [DecidablePred q] :
    ∀ (n : Nat) (l : List α),
      (List.filterMap (fun e : Nat × α => if q e.1 then none else some e.2)
        (List.enumFrom n l)).Sublist l := by
  intro n l
  induction l generalizing n with
  | nil => simp
  | cons a tl ih =>
    rw [List.enumFrom, List.filterMap_cons]
    by_cases hq : q n
    · rw [if_pos hq]
      exact List.Sublist.cons a (ih (n + 1))
    · rw [if_neg hq]
      exact List.Sublist.cons₂ a (ih (n + 1))

/-- The claim-literal tagged block with `action`/`path` syntax. -/
def actionIn : String :=
  "<action type=\x22file\x22 path=\x22src/App.tsx\x22>function App()\x7breturn null\x7d</action>"

set_option maxRecDepth 200000 in
/-- C8 counterexample: on the claim-literal input
`<action type="file" path="src/App.tsx">...</action>` the parser finds
no tagged block (its pattern requires `boltAction`/`filePath`), no
header and no fenced block, so it yields zero steps; the assembled
tree is empty and the bundle's concatenated component code is the
empty string, which does not contain `function App()\x7breturn null\x7d`. -/
theorem C8_counterexample :
    Steps.parseXml actionIn = [] ∧
    Builder.processSteps [] ((Steps.parseXml actionIn).map (fun st => (st.path, st.code))) =
      some [] ∧
    Bundle.safeCodeOf [] = "" ∧
    Preview.includesS (Bundle.safeCodeOf []) "function App()\x7breturn null\x7d" = false := by
  refine ⟨by decide, rfl, by decide, by decide⟩

/-- The tagged-block input of the amended scenario, in the syntax the
parser actually recognizes. -/
def bIn8 : String :=
  "<boltAction type=\x22file\x22 filePath=\x22src/App.tsx\x22>import React from \x27react\x27;\nexport default function App()\x7breturn null\x7d</boltAction>"

/-- The file body of the amended scenario. -/
def bCode8 : String :=
  "import React from \x27react\x27;\nexport default function App()\x7breturn null\x7d"

/-- The tree the Builder walk assembles from the single parsed step. -/
def tr8 : List Builder.FItem :=
  [Builder.FItem.folder "src" "/src" [Builder.FItem.file "App.tsx" "/src/App.tsx" bCode8]]

set_option maxRecDepth 200000 in
/-- C8 (amended): in the synthesized bundle the concatenated component
chunks are the non-root component files in file-set order followed by
the root component file last, and the component selection is a
sublist of the code files (order preserved); end-to-end, the
`boltAction` form of the scenario input parses to one step at
`src/App.tsx`, assembles to a single-file tree, and its bundle code is
the declaration with the import line removed and the
`export default` qualifier dropped, containing
`function App()\x7breturn null\x7d` and no `export` keyword. -/
theorem C8_amended_bundle :
    (∀ (items : List Builder.FItem) (app : String × String),
       (Bundle.codeFilesOf items).find? (fun f => Bundle.isAppPath f.1) = some app →
       Bundle.chunksOf items =
         (Bundle.componentFiles (Bundle.codeFilesOf items)).map
           (fun f => Bundle.transformJS (Bundle.stripCode f.2)) ++
         [Bundle.transformJS (Bundle.stripCode app.2)] ∧
       (Bundle.componentFiles (Bundle.codeFilesOf items)).Sublist
         (Bundle.codeFilesOf items)) ∧
    Steps.parseXml bIn8 =
      [{ id := "step-0", title := "Create src/App.tsx", status := "completed",
         path := "src/App.tsx", code := bCode8 }] ∧
    Builder.processSteps [] ((Steps.parseXml bIn8).map (fun st => (st.path, st.code))) =
      some tr8 ∧
    Bundle.safeCodeOf tr8 = "\nfunction App()\x7breturn null\x7d" ∧
    Preview.includesS (Bundle.safeCodeOf tr8) "function App()\x7breturn null\x7d" = true ∧
    Preview.includesS (Bundle.safeCodeOf tr8) "export" = false := by
  refine ⟨?_, by decide, rfl, by decide, by decide, by decide⟩
  intro items app hfind
  constructor
  · unfold Bundle.chunksOf Bundle.orderedFiles
    rw [hfind]
    simp
  · unfold Bundle.componentFiles
    have h := filterMap_enumFrom_sublist
      (fun i => some i = (Bundle.codeFilesOf items).findIdx? (fun f => Bundle.isAppPath f.1) ∨
        some i = (Bundle.codeFilesOf items).findIdx? (fun f => Bundle.isMainPath f.1))
      0 (Bundle.codeFilesOf items)
    exact h

set_option maxRecDepth 200000 in
/-- Witness for the general conjunct of the amended C8 theorem at the
scenario tree. -/
theorem C8_witness :
    (Bundle.codeFilesOf tr8).find? (fun f => Bundle.isAppPath f.1) =
      some ("/src/App.tsx", bCode8) ∧
    Bundle.chunksOf tr8 =
      (Bundle.componentFiles (Bundle.codeFilesOf tr8)).map
        (fun f => Bundle.transformJS (Bundle.stripCode f.2)) ++
      [Bundle.transformJS (Bundle.stripCode bCode8)] := by
  refine ⟨by decide, ?_⟩
  exact (C8_amended_bundle.1 tr8 ("/src/App.tsx", bCode8) (by decide)).1


/-- The escape pattern as an explicit character list. -/
theorem escPat_eq :
    Bundle.escPat = '<' :: '/' :: 's' :: 'c' :: 'r' :: 'i' :: 'p' :: 't' :: [] := rfl

/-- The escape replacement as an explicit character list. -/
theorem escRep_eq :
    Bundle.escRep = '<' :: '\\' :: '/' :: 's' :: 'c' :: 'r' :: 'i' :: 'p' :: 't' :: [] := rfl

/-- The proper nonempty suffixes of the escape pattern. -/
def escSufs : List Chars :=
  [['/', 's', 'c', 'r', 'i', 'p', 't'], ['s', 'c', 'r', 'i', 'p', 't'],
   ['c', 'r', 'i', 'p', 't'], ['r', 'i', 'p', 't'], ['i', 'p', 't'], ['p', 't'], ['t']]

theorem ciStarts_head_false (p c : Char) (ps cs : Chars) (h : ¬ lowerChar p = lowerChar c) :
    ciStarts (p :: ps) (c :: cs) = false := by
  simp [ciStarts, h]

theorem ciStarts_cons_iff (p c : Char) (ps cs : Chars) :
    ciStarts (p :: ps) (c :: cs) = true ↔
      (lowerChar p = lowerChar c ∧ ciStarts ps cs = true) := by
  simp [ciStarts, Bool.and_eq_true, decide_eq_true_eq]

theorem escStep_none (l : Chars) (h : Bundle.escStep l = none) :
    ciStarts Bundle.escPat l = false := by
  by_cases hc : ciStarts Bundle.escPat l = true
  · rw [Bundle.escStep, if_pos hc] at h
    cases h
  · simpa using hc

theorem escStep_some (l r : Chars) (k : Nat) (h : Bundle.escStep l = some (r, k)) :
    ciStarts Bundle.escPat l = true ∧ r = Bundle.escRep ∧ k = 8 := by
  by_cases hc : ciStarts Bundle.escPat l = true
  · rw [Bundle.escStep, if_pos hc] at h
    cases h
    exact ⟨hc, rfl, rfl⟩
  · rw [Bundle.escStep, if_neg hc] at h
    cases h

theorem esc_pres_cons (s0 : Char) (stail R cs : Chars) (c : Char)
    (hl : ciStarts (s0 :: stail) (c :: cs) = false)
    (hrec : ciStarts stail cs = false → ciStarts stail R = false) :
    ciStarts (s0 :: stail) (c :: R) = false := by
  by_cases hc0 : lowerChar s0 = lowerChar c
  · have h2 : ciStarts stail cs = false := by
      rw [Bool.eq_false_iff]
      intro ht
      rw [(ciStarts_cons_iff _ _ _ _).mpr ⟨hc0, ht⟩] at hl
      cases hl
    rw [Bool.eq_false_iff]
    intro ht
    have h3 := hrec h2
    have h4 := ((ciStarts_cons_iff _ _ _ _).mp ht).2
    rw [h4] at h3
    cases h3
  · exact ciStarts_head_false _ _ _ _ hc0

theorem esc_suffix_pres : ∀ (fuel : Nat) (l s : Chars),
    s ∈ escSufs → ciStarts s l = false →
    ciStarts s (replaceScanF Bundle.escStep fuel l) = false := by
  intro fuel
  induction fuel with
  | zero => intro l s _ h; simpa only [replaceScanF] using h
  | succ n ih =>
    intro l s hs hl
    cases l with
    | nil => simpa only [replaceScanF] using hl
    | cons c cs =>
      rw [replaceScanF]
      cases hstep : Bundle.escStep (c :: cs) with
      | some rk =>
        obtain ⟨r, k⟩ := rk
        obtain ⟨hci, hr, hk⟩ := escStep_some _ _ _ hstep
        subst hr
        subst hk
        rw [escRep_eq]
        simp only [escSufs, List.mem_cons, List.not_mem_nil, or_false] at hs
        rcases hs with rfl | rfl | rfl | rfl | rfl | rfl | rfl <;>
          exact ciStarts_head_false _ _ _ _ (by decide)
      | none =>
        simp only [escSufs, List.mem_cons, List.not_mem_nil, or_false] at hs
        rcases hs with rfl | rfl | rfl | rfl | rfl | rfl | rfl <;>
          exact esc_pres_cons _ _ _ _ _ hl (fun h2 => by
            first
            | exact ih cs _ (by decide) h2
            | exact absurd h2 (by simp [ciStarts]))

theorem ciOccursIn_cons (pat : Chars) (c : Char) (cs : Chars) :
    ciOccursIn pat (c :: cs) = (ciStarts pat (c :: cs) || ciOccursIn pat cs) := by
  simp [ciOccursIn]

theorem escRep_append_no (R : Chars) (hR : ciOccursIn Bundle.escPat R = false) :
    ciOccursIn Bundle.escPat (Bundle.escRep ++ R) = false := by
  rw [escRep_eq]
  simp only [List.cons_append, List.nil_append]
  simp only [ciOccursIn_cons, Bool.or_eq_false_iff]
  refine ⟨?_, ?_, ?_, ?_, ?_, ?_, ?_, ?_, ?_, hR⟩
  · rw [escPat_eq, Bool.eq_false_iff]
    intro ht
    have h2 := ((ciStarts_cons_iff _ _ _ _).mp ht).2
    exact absurd ((ciStarts_cons_iff _ _ _ _).mp h2).1 (by decide)
  all_goals
    rw [escPat_eq]
    exact ciStarts_head_false _ _ _ _ (by decide)

theorem esc_no_occur : ∀ (fuel : Nat) (l : Chars), l.length ≤ fuel →
    ciOccursIn Bundle.escPat (replaceScanF Bundle.escStep fuel l) = false := by
  intro fuel
  induction fuel with
  | zero =>
    intro l hlen
    have hnil : l = [] := List.length_eq_zero.mp (Nat.le_zero.mp hlen)
    subst hnil
    decide
  | succ n ih =>
    intro l hlen
    cases l with
    | nil =>
      simp only [replaceScanF]
      decide
    | cons c cs =>
      rw [replaceScanF]
      cases hstep : Bundle.escStep (c :: cs) with
      | some rk =>
        obtain ⟨r, k⟩ := rk
        obtain ⟨hci, hr, hk⟩ := escStep_some _ _ _ hstep
        subst hr
        subst hk
        apply escRep_append_no
        apply ih
        simp only [List.length_drop, List.length_cons] at *
        omega
      | none =>
        have hnone := escStep_none _ hstep
        have hrec := ih cs (by simpa using Nat.le_of_succ_le_succ hlen)
        rw [ciOccursIn_cons, Bool.or_eq_false_iff]
        refine ⟨?_, hrec⟩
        by_cases hc : lowerChar '<' = lowerChar c
        · have h2 : ciStarts ('/' :: 's' :: 'c' :: 'r' :: 'i' :: 'p' :: 't' :: []) cs = false := by
            rw [Bool.eq_false_iff]
            intro ht
            rw [escPat_eq] at hnone
            rw [(ciStarts_cons_iff _ _ _ _).mpr ⟨hc, ht⟩] at hnone
            cases hnone
          have h3 := esc_suffix_pres n cs _ (by decide) h2
          rw [escPat_eq, Bool.eq_false_iff]
          intro ht
          have h4 := ((ciStarts_cons_iff _ _ _ _).mp ht).2
          rw [h4] at h3
          cases h3
        · rw [escPat_eq]
          exact ciStarts_head_false _ _ _ _ hc

/-- C10: before the concatenated component code is embedded in the
bundle document, `buildPreview` rewrites it with the
`/<\/script/gi` replace; afterwards no case-insensitive occurrence of
the literal `</script` remains in the embedded code, for every input
string and every input file tree, and the document is exactly a fixed
prefix, the escaped code, and a fixed suffix, so generated file
content cannot terminate the inline bootstrap script tag. -/
theorem C10_script_escape :
    (∀ s : String, ciOccursIn "</script".data (Bundle.escapeScript s).data = false) ∧
    (∀ items : List Builder.FItem,
       ciOccursIn "</script".data (Bundle.safeCodeOf items).data = false ∧
       ∃ pre post : String,
         Bundle.buildPreview items = pre ++ Bundle.safeCodeOf items ++ post) := by
  have main : ∀ s : String, ciOccursIn Bundle.escPat (Bundle.escapeScript s).data = false := by
    intro s
    show ciOccursIn Bundle.escPat (replaceScanF Bundle.escStep s.data.length s.data) = false
    exact esc_no_occur _ _ (le_refl _)
  refine ⟨main, fun items => ⟨main _,
    ⟨Bundle.tplH1 ++ Bundle.allCSSOf items ++ Bundle.tplH2,
     Bundle.tplH3 ++ Bundle.appNameOf items ++ Bundle.tplH4 ++ Bundle.appNameOf items ++
       Bundle.tplH5, ?_⟩⟩⟩
  simp [Bundle.buildPreview, String.append_assoc]

namespace Preview

/-- Quote class `['"]` of the import regex. -/
def isQuote (c : Char) : Bool := c = sqC ∨ c = dq

/-- One position of
`import\s+(?:\{[^}]*\}|(\w+))\s+from\s+['"][^'"]+['"]` with flag `g`
(src/src/components/PreviewFrame.tsx, line 1546): returns the full
match text and the optional first capture group (default-import
identifier); the brace alternative is attempted first and `[^}]*` may
cross newlines. -/
def importMatch (l : Chars) : Option ((Chars × Option Chars) × Nat) :=
  if litStarts "import".data l then
    match takeRun1 isJsWs (l.drop 6) with
    | none => none
    | some (w1, r1) =>
      let alt1 : Option (Chars × Option Chars × Chars) :=
        match r1 with
        | '{' :: r2 =>
          let body := r2.takeWhile (fun c => ¬ c = '}')
          (match r2.drop body.length with
           | '}' :: r3 => some ('{' :: (body ++ ['}']), none, r3)
           | _ => none)
        | _ => none
      let alt2 : Option (Chars × Option Chars × Chars) :=
        match takeRun1 isWordChar r1 with
        | some (w, r3) => some (w, some w, r3)
        | none => none
      match (match alt1 with | some a => some a | none => alt2) with
      | none => none
      | some (grpTxt, g1, r3) =>
        match takeRun1 isJsWs r3 with
        | none => none
        | some (w2, r4) =>
          if litStarts "from".data r4 then
            match takeRun1 isJsWs (r4.drop 4) with
            | none => none
            | some (w3, r5) =>
              match r5 with
              | q1 :: r6 =>
                if isQuote q1 then
                  match takeRun1 (fun c => ¬ isQuote c) r6 with
                  | some (body2, r7) =>
                    (match r7 with
                     | q2 :: _ =>
                       if isQuote q2 then
                         some (("import".data ++ w1 ++ grpTxt ++ w2 ++ "from".data ++ w3 ++
                             q1 :: (body2 ++ [q2]), g1),
                           6 + w1.length + grpTxt.length + w2.length + 4 + w3.length +
                             1 + body2.length + 1)
                       else none
                     | [] => none)
                  | none => none
                else none
              | [] => none
          else none
  else none

/-- One position of the named-import search `\{([^}]+)\}` (line
1551), applied to a full import match text. -/
def namedBracesMatch (l : Chars) : Option Chars :=
  match l with
  | '{' :: r =>
    (match takeRun1 (fun c => ¬ c = '}') r with
     | some (body, r2) =>
       (match r2 with
        | '}' :: _ => some body
        | _ => none)
     | none => none)
  | _ => none

/-- One match of the separator regex `\s+as\s+` of
`n.trim().split(/\s+as\s+/)` (line 1553). -/
def asSepMatch (l : Chars) : Option (Unit × Nat) :=
  match takeRun1 isJsWs l with
  | some (w1, r1) =>
    if litStarts "as".data r1 then
      match takeRun1 isJsWs (r1.drop 2) with
      | some (w2, _) => some ((), w1.length + 2 + w2.length)
      | none => none
    else none
  | none => none

/-- `.split(/\s+as\s+/).pop()`: the piece after the last separator
match. -/
def lastAsPiece (p : Chars) : Chars :=
  match (scanAllIdx asSepMatch p 0).getLast? with
  | some (i, _, len) => p.drop (i + len)
  | none => p

/-- Insert into the `existingImports` set (line 1543): membership is
all that is consumed. -/
def insertSet (acc : List Chars) (w : Chars) : List Chars :=
  if w ∈ acc then acc else acc ++ [w]

/-- The already-imported identifiers of a file (lines 1546-1555): for
every import match, the default-import capture if present, then every
name of the first brace group found in the full match text, trimmed,
with the piece after the last ` as ` kept. -/
def importsOf (content : Chars) : List Chars :=
  (scanAll importMatch content).foldl (fun acc mm =>
    let acc2 := match mm.2 with
      | some w => insertSet acc w
      | none => acc
    match findFirst namedBracesMatch mm.1 with
    | some body =>
      (Builder.splitOnChar ',' body).foldl (fun a piece =>
        insertSet a (lastAsPiece (trimChars piece))) acc2
    | none => acc2) []

/-- One match of the JSX tag regex `<([A-Z][A-Za-z0-9]+)[\s/>]` with
flag `g` (line 1558). -/
def jsxTagMatch (l : Chars) : Option (Chars × Nat) :=
  match l with
  | '<' :: c :: r2 =>
    if isUpperAZ c then
      match takeRun1 isAlnum r2 with
      | some (run, r3) =>
        (match r3 with
         | d :: _ =>
           if isJsWs d ∨ d = '/' ∨ d = '>' then some (c :: run, 2 + run.length + 1)
           else none
         | [] => none)
      | none => none
    else none
  | _ => none

/-- `basename.replace(/\.(tsx|jsx)$/, '')` (line 1534). -/
def stripCompExt (base : String) : String :=
  if endsWithS base ".tsx" ∨ endsWithS base ".jsx" then
    String.mk (base.data.take (base.data.length - 4))
  else base

/-- `toFile.replace(/\.(tsx|jsx|ts|js)$/, '')` (line 1596). -/
def stripJsExt (base : String) : String :=
  if endsWithS base ".tsx" ∨ endsWithS base ".jsx" then
    String.mk (base.data.take (base.data.length - 4))
  else if endsWithS base ".ts" ∨ endsWithS base ".js" then
    String.mk (base.data.take (base.data.length - 3))
  else base

/-- The common-prefix counter of `getRelativeImportPath` (lines
1599-1602). -/
def commonCount : List String → List String → Nat
  | a :: rest1, b :: rest2 => if a = b then 1 + commonCount rest1 rest2 else 0
  | _, _ => 0

/-- `'../'.repeat(ups)`. -/
def repStr : Nat → String → String
  | 0, _ => ""
  | Nat.succ n, s => s ++ repStr n s

/-- `getRelativeImportPath` (src/src/components/PreviewFrame.tsx,
lines 1591-1608). -/
def getRelativeImportPath (fromPath toPath : String) : String :=
  let fromParts := (Builder.splitSlash fromPath).dropLast
  let toParts0 := Builder.splitSlash toPath
  let toFile := toParts0.getLastD ""
  let toParts := toParts0.dropLast
  let toName := stripJsExt toFile
  let common := commonCount fromParts toParts
  let ups := fromParts.length - common
  let pfx := if 0 < ups then repStr ups "../" else "./"
  pfx ++ jsJoin "/" (toParts.drop common ++ [toName])

/-- Is the path a `.tsx`/`.jsx` file (line 1540). -/
def isCompExtPath (p : String) : Bool := endsWithS p ".tsx" ∨ endsWithS p ".jsx"

/-- The component lookup of `fixMissingImports` (lines 1530-1537):
component name to path, later files overwriting earlier names (JS
`Map.prototype.set`). -/
def compMap (m : FMap) : FMap :=
  m.foldl (fun acc e =>
    if isCompExtPath e.1 ∧ ¬ endsWithS e.1 "main.tsx" ∧ ¬ endsWithS e.1 "main.jsx" then
      pset acc (stripCompExt ((Builder.splitSlash e.1).getLastD "")) e.1
    else acc) []

/-- The collected missing-import lines of one file (lines 1557-1571):
each PascalCase JSX tag that is not already imported, is not the file
itself, and names a known component, produces one import line; a tag
is counted at its first occurrence only. -/
def missingOf (comp : FMap) (filePath : String) (content : String) : List String :=
  let currentName := stripCompExt ((Builder.splitSlash filePath).getLastD "")
  let existing0 := (importsOf content.data).map String.mk
  ((scanAll jsxTagMatch content.data).foldl
    (fun (st : List String × List String) tag =>
      let tagName := String.mk tag
      if tagName ∈ st.1 then st
      else if tagName = currentName then st
      else if ¬ phas comp tagName then st
      else
        (st.1 ++ [tagName],
         st.2 ++ ["import " ++ tagName ++ " from " ++ sqS ++
           getRelativeImportPath filePath ((pget comp tagName).getD "") ++ sqS ++ ";"])
    ) (existing0, [])).2

/-- `content.lastIndexOf(pat)` as an optional index. -/
def lastIdxOf (pat l : Chars) : Option Nat :=
  ((List.range (l.length + 1)).filter (fun i => litStarts pat (l.drop i))).getLast?

/-- `content.indexOf(c, start)` as an optional index. -/
def idxOfFrom (c : Char) (l : Chars) (start : Nat) : Option Nat :=
  ((List.range l.length).filter (fun j => start ≤ j ∧ l.get? j = some c)).head?

/-- The insertion step (lines 1576-1583): after the line holding the
last `import ` occurrence, else at the top with a blank line. -/
def insertImports (content : String) (miss : List String) : String :=
  match lastIdxOf "import ".data content.data with
  | some li =>
    let insertPos := match idxOfFrom '\n' content.data li with
      | some j => j + 1
      | none => content.data.length
    String.mk (content.data.take insertPos ++ (jsJoin "\n" miss).data ++ '\n' ::
      content.data.drop insertPos)
  | none => String.mk ((jsJoin "\n" miss).data ++ '\n' :: '\n' :: content.data)

/-- One file of the repair loop (lines 1539-1584): the content is
mutated only when at least one missing import was found. -/
def fixOne (comp : FMap) (filePath content : String) : String :=
  let miss := missingOf comp filePath content
  if miss = [] then content else insertImports content miss

/-- `fixMissingImports` (src/src/components/PreviewFrame.tsx, lines
1528-1586): every `.tsx`/`.jsx` entry is repaired against the
component lookup built from the original keys; other entries are
untouched. -/
def fixMissingImports (m : FMap) : FMap :=
  m.map (fun e => if isCompExtPath e.1 then (e.1, fixOne (compMap m) e.1 e.2) else e)

end Preview

/-- A component file used by the C6 scenarios. -/
def hdr6 : String := "export default function Header()\x7breturn null\x7d"

/-- The C6 counterexample file set: `src/App.tsx` uses `<Header />`
and holds a brace import whose `\x7b ... \x7d` group spans lines. -/
def m6 : Preview.FMap :=
  [("src/Header.tsx", hdr6),
   ("src/App.tsx",
    "import React from \x27react\x27;\n<Header />\nimport \x7b oops\n\x7d from \x27x\x27\n")]

/-- The C6 well-formed file set: the same usage with single-line
imports only. -/
def m6g : Preview.FMap :=
  [("src/Header.tsx", hdr6),
   ("src/App.tsx", "import React from \x27react\x27;\nconst t = <Header />;\n")]

set_option maxRecDepth 100000 in
/-- C6 counterexample: running the missing-import repair twice on `m6`
differs from running it once — the brace alternative `\x7b[^\x7d]*\x7d`
of the import regex crosses newlines and swallows the import line the
first run inserted, so the identifier `Header` is never seen as
imported; the second run inserts the very same import line again,
duplicating it. -/
theorem C6_counterexample :
    ¬ Preview.fixMissingImports (Preview.fixMissingImports m6) =
        Preview.fixMissingImports m6 ∧
    Preview.pget (Preview.fixMissingImports m6) "src/App.tsx" =
      some ("import React from \x27react\x27;\n<Header />\nimport \x7b oops\n" ++
        "import Header from \x27./Header\x27;\n\x7d from \x27x\x27\n") ∧
    Preview.pget (Preview.fixMissingImports (Preview.fixMissingImports m6)) "src/App.tsx" =
      some ("import React from \x27react\x27;\n<Header />\nimport \x7b oops\n" ++
        "import Header from \x27./Header\x27;\nimport Header from \x27./Header\x27;\n" ++
        "\x7d from \x27x\x27\n") := by
  refine ⟨by decide, by decide, by decide⟩

/-- C6 (amended): the repair pass is not idempotent in general; it is
the identity exactly where no work remains: whenever every entry's
missing-import list against the component lookup is empty, the pass
returns the file set unchanged — so re-running it on an output all of
whose entries have empty missing-import lists inserts nothing. -/
theorem C6_amended_idempotence (m : Preview.FMap)
    (h : ∀ e ∈ m, Preview.missingOf (Preview.compMap m) e.1 e.2 = []) :
    Preview.fixMissingImports m = m := by
  unfold Preview.fixMissingImports
  conv_rhs => rw [← List.map_id m]
  apply List.map_congr_left
  intro e he
  by_cases hc : Preview.isCompExtPath e.1 = true
  · rw [if_pos hc]
    unfold Preview.fixOne
    rw [h e he]
    simp
  · rw [if_neg hc]
    rfl

set_option maxRecDepth 100000 in
/-- Witness: the repaired well-formed scenario has no missing imports
left, so by the amended theorem a second run is the identity, while
the first run did change the file set. -/
theorem C6_witness :
    (∀ e ∈ Preview.fixMissingImports m6g,
       Preview.missingOf (Preview.compMap (Preview.fixMissingImports m6g)) e.1 e.2 = []) ∧
    Preview.fixMissingImports (Preview.fixMissingImports m6g) =
      Preview.fixMissingImports m6g ∧
    ¬ Preview.fixMissingImports m6g = m6g := by
  refine ⟨by decide, C6_amended_idempotence _ (by decide), by decide⟩
